import Mathlib

/-!
Verification of the samsung-docs-mcp documentation cache against its
natural-language specification.

The development shallowly embeds the core of the repository:

* `src/search.ts` — the glob matcher (`matchesGlob`) and the search glue;
* `src/server.ts` (cache half) — `urlToPath`, `readDb`, `writeCache`;
* `src/cache.ts` — the content-store `urlToPath` / `writeCache`;
* `src/populate.ts` — `populate` / `fetchAndCache` (registration,
  staleness gating, batched fetching, incremental persistence);
* the version filter `compareVersions` / `matchesVersionFilter`.

Strings are modelled as `List Char` in the algorithmic kernels (with
`String` wrappers where convenient); JS `number | null` timestamp fields
become `Option Int`; fallible operations return `Except`/`Option`.
-/

namespace SamsungDocs

/-! ### Glob matcher (src/search.ts, `matchesGlob`)

The source builds a regex from the pattern by escaping the regex
metacharacters `.+^${}()|[]\`, then replacing `*` with `.*` and `?` with
`.`, and runs `new RegExp(re).test(url)`.  After escaping, every pattern
character other than `*` and `?` is a literal, so a pattern denotes a
token list over {star, any-one, literal}.  `RegExp.test` without anchors
succeeds iff the regex matches some contiguous substring of the subject,
which is exactly a full match of `.*` ++ tokens ++ `.*`. -/

inductive GTok where
  | star
  | anyOne
  | lit (c : Char)
deriving DecidableEq, Repr

def parseGlob : List Char → List GTok
  | [] => []
  | c :: cs =>
    (if c = '*' then GTok.star else if c = '?' then GTok.anyOne else GTok.lit c)
      :: parseGlob cs

/-- `*` consumes any suffix: try matching the continuation on every
suffix of the subject. -/
def starAux (f : List Char → Bool) : List Char → Bool
  | [] => f []
  | c :: s => f (c :: s) || starAux f s

/-- Anchored matching of a glob token list against a character list. -/
def gmatch : List GTok → List Char → Bool
  | [], [] => true
  | [], _ :: _ => false
  | GTok.star :: ts, s => starAux (gmatch ts) s
  | GTok.anyOne :: _, [] => false
  | GTok.anyOne :: ts, _ :: s => gmatch ts s
  | GTok.lit _ :: _, [] => false
  | GTok.lit c :: ts, c₂ :: s => (c = c₂ : Bool) && gmatch ts s

/-- `matchesGlob` from src/search.ts: unanchored `RegExp.test`, modelled as
a full match with an implicit `.*` on either side. -/
def matchesGlob (url pattern : String) : Bool :=
  gmatch (GTok.star :: (parseGlob pattern.data ++ [GTok.star])) url.data

/-! ### Version filter (`compareVersions`, `matchesVersionFilter`)

`compareVersions` splits both versions on `.`, converts each component
with JS `Number` (empty string ↦ 0, non-numeric ↦ NaN, modelled as
`Option Int` with `none` for NaN), and compares componentwise with
missing trailing components read as 0.  `matchesVersionFilter` splits the
expression on `,` and requires every clause `OP value` to hold, where the
operator is recognised by the regex `^(>=|<=|!=|>|<|=)(.+)$` (with
backtracking: `>=` alone parses as op `>` and value `=`). -/

def splitOnChar (sep : Char) : List Char → List (List Char)
  | [] => [[]]
  | c :: cs =>
    let r := splitOnChar sep cs
    if c = sep then [] :: r
    else
      match r with
      | [] => [[c]]
      | h :: t => (c :: h) :: t

def digitsVal (cs : List Char) : Nat :=
  cs.foldl (fun a c => a * 10 + (c.toNat - '0'.toNat)) 0

def trimChars (cs : List Char) : List Char :=
  ((cs.dropWhile Char.isWhitespace).reverse.dropWhile Char.isWhitespace).reverse

/-- JS `Number` on a version component: whitespace is trimmed, `""` is 0,
digit strings are their value, anything else is NaN (`none`). -/
def parseNumComp (cs₀ : List Char) : Option Int :=
  let cs := trimChars cs₀
  if cs = [] then some 0
  else if cs.all Char.isDigit then some (digitsVal cs)
  else none

/-- JS `!==` where `none` stands for NaN (NaN is unequal to everything,
including itself). -/
def jsNeq : Option Int → Option Int → Bool
  | some a, some b => (a ≠ b : Bool)
  | _, _ => true

/-- JS subtraction where `none` stands for NaN. -/
def jsSub : Option Int → Option Int → Option Int
  | some a, some b => some (a - b)
  | _, _ => none

/-- Tail of the comparison loop once the left version ran out of
components (each missing left component is read as 0). -/
def cmpZeroL : List (Option Int) → Option Int
  | [] => some 0
  | b :: rb => if jsNeq (some 0) b then jsSub (some 0) b else cmpZeroL rb

/-- The comparison loop of `compareVersions`: first differing component
decides; missing trailing components are 0. -/
def cmpLoop : List (Option Int) → List (Option Int) → Option Int
  | [], rb => cmpZeroL rb
  | a :: ra, [] => if jsNeq a (some 0) then jsSub a (some 0) else cmpLoop ra []
  | a :: ra, b :: rb => if jsNeq a b then jsSub a b else cmpLoop ra rb

def compareVersions (a b : List Char) : Option Int :=
  cmpLoop ((splitOnChar '.' a).map parseNumComp) ((splitOnChar '.' b).map parseNumComp)

inductive VOp where
  | ge | le | ne | gt | lt | eq
deriving DecidableEq, Repr

/-- Clause recognition `^(>=|<=|!=|>|<|=)(.+)$`, including the regex
backtracking behaviour (a two-character operator is only taken when at
least one value character remains). -/
def parseClause : List Char → Option (VOp × List Char)
  | '>' :: '=' :: r :: rs => some (VOp.ge, r :: rs)
  | '<' :: '=' :: r :: rs => some (VOp.le, r :: rs)
  | '!' :: '=' :: r :: rs => some (VOp.ne, r :: rs)
  | '>' :: r :: rs => some (VOp.gt, r :: rs)
  | '<' :: r :: rs => some (VOp.lt, r :: rs)
  | '=' :: r :: rs => some (VOp.eq, r :: rs)
  | _ => none

/-- One clause of the filter expression.  A NaN comparison result makes
every operator false except `!=` (JS `NaN !== 0`). -/
def clauseHolds (ver : List Char) (part : List Char) : Bool :=
  match parseClause (trimChars part) with
  | none => false
  | some (op, val) =>
    match compareVersions ver val with
    | some c =>
      match op with
      | VOp.ge => (0 ≤ c : Bool)
      | VOp.le => (c ≤ 0 : Bool)
      | VOp.gt => (0 < c : Bool)
      | VOp.lt => (c < 0 : Bool)
      | VOp.eq => (c = 0 : Bool)
      | VOp.ne => (c ≠ 0 : Bool)
    | none =>
      match op with
      | VOp.ne => true
      | _ => false

def matchesVersionFilter (ver filter : String) : Bool :=
  (splitOnChar ',' filter.data).all (clauseHolds ver.data)

/-! ### Page registry data model and `readDb` (src/server.ts)

`db.json` holds `{ populatedAt: number | null, pages: Record<string,
{title, fetchedAt: number | null}> }`.  `readDb` checks file existence:
a missing file yields the fresh empty registry, an existing file is fed
to `file.json()`, whose parse failure on a corrupt file propagates as an
exception.  The persisted store is modelled by its three observable
states. -/

structure PageEntry where
  title : String
  fetchedAt : Option Int
deriving DecidableEq, Repr

def PagesMap : Type := String → Option PageEntry

structure DocsDb where
  populatedAt : Option Int
  pages : PagesMap

def emptyDb : DocsDb := ⟨none, fun _ => none⟩

inductive DbStore where
  | missing
  | corrupt
  | wellFormed (db : DocsDb)

/-- `readDb`: a missing store is replaced by the fresh empty registry; an
existing store is parsed, and a corrupt one raises the parse error. -/
def readDb : DbStore → Except String DocsDb
  | DbStore.missing => Except.ok emptyDb
  | DbStore.corrupt => Except.error "JSON parse error"
  | DbStore.wellFormed db => Except.ok db

/-! ### PageKey derivation (src/server.ts, `urlToPath`)

`urlToPath` parses the URL (`new URL(url, base)`), then
1. strips one leading `/` from `parsed.pathname`,
2. replaces every remaining `/` with `__`,
3. strips a trailing `.html` or `.htm`,
4. if the query is nonempty, appends `_q_` followed by the
   form-urlencoded serialization of the name-sorted query parameters
   (`parsed.searchParams.sort(); parsed.searchParams.toString()`), and
5. appends `.md`.

We model the parsed URL as its pathname (a character list, leading slash
included) plus the decoded query parameters (name/value pairs in order);
`parsed.search` being truthy corresponds to a nonempty parameter list.
`URLSearchParams.toString()` is the application/x-www-form-urlencoded
serializer: each name and value is UTF-8-encoded and percent-encoded with
uppercase hex, except ASCII alphanumerics and `*-._` kept literal and
space written `+`; pairs become `name=value` joined by `&`. -/

namespace Server

def stripLeadSlash : List Char → List Char
  | '/' :: r => r
  | r => r

def replaceSlashes (l : List Char) : List Char :=
  l.flatMap fun c => if c = '/' then ['_', '_'] else [c]

def stripHtmlSuffix (l : List Char) : List Char :=
  if ".html".data.isSuffixOf l then l.take (l.length - 5)
  else if ".htm".data.isSuffixOf l then l.take (l.length - 4)
  else l

/-- Characters serialized literally by the form-urlencoded serializer. -/
def isFormSafe (c : Char) : Bool :=
  c.isAlphanum || c = '*' || c = '-' || c = '.' || c = '_'

def hexDigit (n : Nat) : Char :=
  if n < 10 then Char.ofNat (48 + n) else Char.ofNat (55 + n)

/-- UTF-8 byte sequence of a character. -/
def utf8Bytes (c : Char) : List Nat :=
  if c.toNat < 0x80 then [c.toNat]
  else if c.toNat < 0x800 then
    [0xC0 + c.toNat / 0x40, 0x80 + c.toNat % 0x40]
  else if c.toNat < 0x10000 then
    [0xE0 + c.toNat / 0x1000, 0x80 + c.toNat / 0x40 % 0x40, 0x80 + c.toNat % 0x40]
  else
    [0xF0 + c.toNat / 0x40000, 0x80 + c.toNat / 0x1000 % 0x40,
      0x80 + c.toNat / 0x40 % 0x40, 0x80 + c.toNat % 0x40]

def pctByte (b : Nat) : List Char := ['%', hexDigit (b / 16), hexDigit (b % 16)]

def formEncodeChar (c : Char) : List Char :=
  if isFormSafe c then [c]
  else if c = ' ' then ['+']
  else (utf8Bytes c).flatMap pctByte

def formEncode (s : List Char) : List Char := s.flatMap formEncodeChar

/-- Name-wise comparison used by `URLSearchParams.sort()` (code-unit
lexicographic order on names). -/
def lexLeNat : List Char → List Char → Bool
  | [], _ => true
  | _ :: _, [] => false
  | a :: ra, b :: rb =>
    if a.toNat < b.toNat then true
    else if b.toNat < a.toNat then false
    else lexLeNat ra rb

/-- Stable insertion of a pair into a name-sorted list: the inserted
(earlier) pair goes before pairs of equal name. -/
def insertParam (p : List Char × List Char) :
    List (List Char × List Char) → List (List Char × List Char)
  | [] => [p]
  | q :: rest => if lexLeNat p.1 q.1 then p :: q :: rest else q :: insertParam p rest

/-- `URLSearchParams.sort()`: stable sort of the pairs by name (a stable
sort is uniquely determined by the comparator, so insertion sort models
it exactly). -/
def sortParams : List (List Char × List Char) → List (List Char × List Char)
  | [] => []
  | p :: rest => insertParam p (sortParams rest)

def serItem (p : List Char × List Char) : List Char :=
  formEncode p.1 ++ '=' :: formEncode p.2

/-- `URLSearchParams.toString()` on an already-sorted parameter list. -/
def serParams : List (List Char × List Char) → List Char
  | [] => []
  | [p] => serItem p
  | p :: q :: rest => serItem p ++ '&' :: serParams (q :: rest)

/-- A parsed URL: `parsed.pathname` plus the decoded query parameters. -/
structure ParsedUrl where
  pathname : List Char
  query : List (List Char × List Char)

/-- The pathname-derived stem of the key (steps 1–3). -/
def pathBase (u : ParsedUrl) : List Char :=
  stripHtmlSuffix (replaceSlashes (stripLeadSlash u.pathname))

def urlToPath (u : ParsedUrl) : List Char :=
  (if u.query = [] then pathBase u
   else pathBase u ++ "_q_".data ++ serParams (sortParams u.query)) ++ ".md".data

end Server

/-! ### Populate pipeline (src/populate.ts)

`populate` discovers links, deduplicates them, registers unknown keys as
pending, then fetches in consecutive batches of size `concurrency` with
`Promise.all`, persisting the registry after every batch, and finally
sets `populatedAt` and persists once more.  `fetchAndCache` skips a link
whose entry is fresh (`entry?.fetchedAt && now - entry.fetchedAt < ttlMs`
— note JS truthiness: a `fetchedAt` of `null` *or* `0` is falsy), and on
a successful fetch writes the rendered page to the content store and
upserts the registry entry with a fresh timestamp; a thrown fetch only
increments the error counter.

The network is modelled by an oracle `String → Option FetchedPage`
(`none` = the fetch throws); `Date.now()` at the moment an entry is
marked is the parameter `tmark`, and the final `populatedAt` stamp is
`tEnd`.  The content store is keyed here by `href` (`writeCache` derives
the file name from the href; the claims below do not depend on the file
naming).  JS single-threaded interleaving of a batch's concurrent
`fetchAndCache` calls is modelled as executing the batch in some order;
order-independence is proved separately. -/

namespace Populate

structure Link where
  href : String
  title : String
deriving DecidableEq, Repr

structure FetchedPage where
  title : String
  url : String
  markdown : String
deriving DecidableEq, Repr

/-- Outcome oracle for the external `fetchPage`: `none` models a throw. -/
def FetchOracle : Type := String → Option FetchedPage

def setPage (m : PagesMap) (k : String) (v : PageEntry) : PagesMap :=
  fun k₂ => if k₂ = k then some v else m k₂

def CacheMap : Type := String → Option String

def setCache (m : CacheMap) (k : String) (v : String) : CacheMap :=
  fun k₂ => if k₂ = k then some v else m k₂

structure RunState where
  db : DocsDb
  cache : CacheMap
  fetched : Nat
  skipped : Nat
  errors : Nat

/-- The freshness guard `entry?.fetchedAt && now - entry.fetchedAt < ttlMs`:
true (skip) iff the entry exists, its `fetchedAt` is non-null and nonzero
(JS truthiness), and the entry is younger than the TTL. -/
def shouldSkip (now ttl : Int) (e : Option PageEntry) : Bool :=
  match e with
  | none => false
  | some en =>
    match en.fetchedAt with
    | none => false
    | some t => (t ≠ 0 : Bool) && (now - t < ttl : Bool)

/-- The markdown document written to the cache on a successful fetch. -/
def renderContent (p : FetchedPage) : String :=
  "# " ++ p.title ++ "\n\nSource: " ++ p.url ++ "\n\n" ++ p.markdown

/-- One `fetchAndCache(link)` call: skip if fresh; otherwise fetch, write
the content store, upsert the registry entry with `fetchedAt = tmark`,
and count; a thrown fetch is caught and counted as an error. -/
def fetchAndCache (now ttl tmark : Int) (oracle : FetchOracle) (st : RunState) (l : Link) :
    RunState :=
  if shouldSkip now ttl (st.db.pages l.href) then
    { st with skipped := st.skipped + 1 }
  else
    match oracle l.href with
    | some page =>
      { st with
          cache := setCache st.cache l.href (renderContent page),
          db := { st.db with pages := setPage st.db.pages l.href ⟨l.title, some tmark⟩ },
          fetched := st.fetched + 1 }
    | none => { st with errors := st.errors + 1 }

/-- The registration step of `populate`:
`if (!db.pages[link.href]) db.pages[link.href] = {title, fetchedAt: null}`. -/
def registerIfAbsent (db : DocsDb) (l : Link) : DocsDb :=
  match db.pages l.href with
  | some _ => db
  | none => { db with pages := setPage db.pages l.href ⟨l.title, none⟩ }

def registerLinks (db : DocsDb) (links : List Link) : DocsDb :=
  links.foldl registerIfAbsent db

/-- One batch: the `Promise.all(batch.map(fetchAndCache))` group, executed
in the given order. -/
def runBatch (now ttl tmark : Int) (oracle : FetchOracle) (st : RunState)
    (batch : List Link) : RunState :=
  batch.foldl (fetchAndCache now ttl tmark oracle) st

/-- The batch loop `for (i = 0; i < n; i += concurrency)`: slice off
`concurrency` links, run the batch, persist the registry (recorded as a
snapshot), continue.  The fuel argument makes the recursion structural;
`batchLoop` below instantiates it with the list length, which suffices
for any positive concurrency. -/
def batchLoopF (c : Nat) (now ttl tmark : Int) (oracle : FetchOracle) :
    Nat → RunState → List Link → RunState × List DocsDb
  | _, st, [] => (st, [])
  | 0, st, _ :: _ => (st, [])
  | fuel + 1, st, l :: rest =>
    let st₂ := runBatch now ttl tmark oracle st (l :: rest.take (c - 1))
    let r := batchLoopF c now ttl tmark oracle fuel st₂ (rest.drop (c - 1))
    (r.1, st₂.db :: r.2)

def batchLoop (c : Nat) (now ttl tmark : Int) (oracle : FetchOracle)
    (st : RunState) (links : List Link) : RunState × List DocsDb :=
  batchLoopF c now ttl tmark oracle links.length st links

/-- The consecutive groups of size `c` that the loop slices off
(the last group may be smaller). -/
def chunksOfF (c : Nat) : Nat → List Link → List (List Link)
  | _, [] => []
  | 0, _ :: _ => []
  | fuel + 1, l :: rest => (l :: rest.take (c - 1)) :: chunksOfF c fuel (rest.drop (c - 1))

def chunksOf (c : Nat) (links : List Link) : List (List Link) :=
  chunksOfF c links.length links

/-- The fetch-and-finalize phase of `populate` on already-registered
links: run the batch loop, then set `populatedAt` and persist once more.
Returns the final state and every persisted registry snapshot in order. -/
def populateRun (c : Nat) (now ttl tmark tEnd : Int) (oracle : FetchOracle)
    (st : RunState) (links : List Link) : RunState × List DocsDb :=
  let r := batchLoop c now ttl tmark oracle st links
  let final : RunState := { r.1 with db := { r.1.db with populatedAt := some tEnd } }
  (final, r.2 ++ [final.db])

/-- The staleness predicate in the words of the spec (for comparison with
the code's guard `shouldSkip`): stale iff the entry is absent, its
`fetchedAt` is absent, or `now - fetchedAt ≥ ttl`. -/
def specStale (now ttl : Int) (e : Option PageEntry) : Bool :=
  match e with
  | none => true
  | some en =>
    match en.fetchedAt with
    | none => true
    | some t => (ttl ≤ now - t : Bool)

end Populate

/-! ### Search index and content store (src/search.ts, src/cache.ts)

`writeCache(url, content)` writes the content blob at the file name
`urlToPath(url)` inside the pages directory and calls
`addToSearchIndex(fileName, content)`; `addToSearchIndex` is a no-op
while the index is unbuilt (`if (!index) return`), and otherwise discards
any previous document with that id and adds the new one.
`resetSearchIndex()` drops the index; `search(query, maxResults, files?)`
builds the index from the pages directory when absent, queries it,
filters by the glob patterns, and truncates to `maxResults`.

The pages directory is modelled as an association list from file name to
content (`Bun.write` replaces in place or appends); the MiniSearch index
as the list of indexed documents. -/

namespace Search

structure SearchDoc where
  id : String
  url : String
  title : String
  body : String
deriving DecidableEq, Repr

/-- Substring test (used to model full-text matching). -/
def containsStr (hay need : List Char) : Bool :=
  hay.tails.any fun t => need.isPrefixOf t

/-- `Bun.write`: replace the entry in place, or append a new one. -/
def setAssoc (m : List (String × String)) (k v : String) : List (String × String) :=
  if m.any (fun p => p.1 = k) then m.map (fun p => if p.1 = k then (k, v) else p)
  else m ++ [(k, v)]

def stripMdSuffix (l : List Char) : List Char :=
  if ".md".data.isSuffixOf l then l.take (l.length - 3) else l

/-- `name.indexOf("_q_")`: split at the first occurrence of `_q_`. -/
def findQ : List Char → Option (List Char × List Char)
  | [] => none
  | '_' :: 'q' :: '_' :: rest => some ([], rest)
  | c :: rest => (findQ rest).map fun p => (c :: p.1, p.2)

/-- `replace(/__/g, "/")`: leftmost non-overlapping replacement. -/
def doubleUnderToSlash : List Char → List Char
  | [] => []
  | '_' :: '_' :: rest => '/' :: doubleUnderToSlash rest
  | c :: rest => c :: doubleUnderToSlash rest

/-- `fileToUrl` from src/search.ts. -/
def fileToUrl (fileName : String) : String :=
  let name := stripMdSuffix fileName.data
  match findQ name with
  | some (pathPart, queryPart) =>
    String.mk ('/' :: (doubleUnderToSlash pathPart ++ '?' :: queryPart))
  | none => String.mk ('/' :: doubleUnderToSlash name)

/-- A line matched by `/^#\s+(.+)$/`: returns the trimmed capture. -/
def lineTitleMatch : List Char → Option (List Char)
  | '#' :: c :: rest =>
    if c.isWhitespace then some (trimChars ((c :: rest).dropWhile Char.isWhitespace))
    else none
  | _ => none

/-- `extractTitle`: first heading line's text, or the fixed fallback. -/
def extractTitle (content : String) : String :=
  match (splitOnChar '\n' content.data).findSome? lineTitleMatch with
  | some t => String.mk t
  | none => "Untitled"

def mkDoc (fileName content : String) : SearchDoc :=
  ⟨fileName, fileToUrl fileName, extractTitle content, content⟩

structure SearchState where
  index : Option (List SearchDoc)
  store : List (String × String)

def buildSearchIndex (st : SearchState) : SearchState :=
  { st with index := some (st.store.map fun p => mkDoc p.1 p.2) }

/-- `index.discard(fileName)` (when present) followed by `index.add`. -/
def setDoc (idx : List SearchDoc) (fileName content : String) : List SearchDoc :=
  idx.filter (fun d => d.id ≠ fileName) ++ [mkDoc fileName content]

def addToSearchIndex (st : SearchState) (fileName content : String) : SearchState :=
  match st.index with
  | none => st
  | some idx => { st with index := some (setDoc idx fileName content) }

def resetSearchIndex (st : SearchState) : SearchState := { st with index := none }

/-- Modelled from the spec: the MiniSearch engine is an external library
(its BM25 ranking, tokenizer, fuzzy and prefix matching are not part of
this repository); per the spec's contract a query returns the indexed
documents relevant to the search text, modelled as those whose title or
body contains the query term, in index order (ranking not modelled). -/
def docMatches (term : String) (d : SearchDoc) : Bool :=
  containsStr d.title.data term.data || containsStr d.body.data term.data

def engineSearch (idx : List SearchDoc) (term : String) : List SearchDoc :=
  idx.filter (docMatches term)

/-- `urlToPath` from src/cache.ts: strip protocol+host, cut query and
hash, flatten slashes, force a `.md` extension. -/
def urlToPath (url : String) : String :=
  let p₁ :=
    if "https://".data.isPrefixOf url.data then
      match url.data.drop 8 with
      | [] => url.data
      | c :: rest => if c = '/' then url.data
        else (c :: rest).dropWhile fun c₂ => c₂ ≠ '/'
    else if "http://".data.isPrefixOf url.data then
      match url.data.drop 7 with
      | [] => url.data
      | c :: rest => if c = '/' then url.data
        else (c :: rest).dropWhile fun c₂ => c₂ ≠ '/'
    else url.data
  let p₂ := (p₁.takeWhile fun c => c ≠ '?').takeWhile fun c => c ≠ '#'
  let p₃ := Server.replaceSlashes (Server.stripLeadSlash p₂)
  let p₄ := if ".md".data.isSuffixOf p₃ then p₃ else Server.stripHtmlSuffix p₃ ++ ".md".data
  String.mk p₄

/-- `writeCache` from src/cache.ts: write the blob, then incrementally
update the index. -/
def writeCache (st : SearchState) (url content : String) : SearchState :=
  addToSearchIndex { st with store := setAssoc st.store (urlToPath url) content }
    (urlToPath url) content

/-- `search` from src/search.ts: build the index if absent, query it,
apply the glob file filter, truncate to `maxResults`.  Returns the
results and the (possibly rebuilt) state. -/
def search (st : SearchState) (query : String) (maxResults : Nat)
    (files : Option (List String)) : List SearchDoc × SearchState :=
  let st₂ := match st.index with
    | none => buildSearchIndex st
    | some _ => st
  let idx : List SearchDoc := match st₂.index with
    | some idx => idx
    | none => []
  let raw := engineSearch idx query
  let raw₂ := match files with
    | some fs =>
      if fs.length ≠ 0 then
        raw.filter fun (r : SearchDoc) => fs.any fun pattern => matchesGlob r.url pattern
      else raw
    | none => raw
  (raw₂.take maxResults, st₂)

/-- The index the `search` call actually queries: the current one, or the
one derived from the store when absent. -/
def idxAfter (st : SearchState) : List SearchDoc :=
  match st.index with
  | some idx => idx
  | none => st.store.map fun p => mkDoc p.1 p.2

end Search

/-! ### Glob matcher lemmas -/

theorem gmatch_nil_iff (s : List Char) : gmatch [] s = true ↔ s = [] := by
  cases s <;> simp [gmatch]

theorem starAux_iff (f : List Char → Bool) (s : List Char) :
    starAux f s = true ↔ ∃ u v, s = u ++ v ∧ f v = true := by
  induction s with
  | nil =>
    constructor
    · intro h
      exact ⟨[], [], rfl, h⟩
    · rintro ⟨u, v, huv, hf⟩
      obtain ⟨rfl, rfl⟩ := List.append_eq_nil.mp huv.symm
      exact hf
  | cons c s ih =>
    constructor
    · intro h
      rcases Bool.or_eq_true_iff.mp h with h | h
      · exact ⟨[], c :: s, rfl, h⟩
      · rcases ih.mp h with ⟨u, v, rfl, hf⟩
        exact ⟨c :: u, v, rfl, hf⟩
    · rintro ⟨u, v, huv, hf⟩
      cases u with
      | nil =>
        cases huv
        exact Bool.or_eq_true_iff.mpr (Or.inl hf)
      | cons c₀ u =>
        obtain ⟨rfl, rfl⟩ : c₀ = c ∧ s = u ++ v := by
          have := List.cons.injEq .. ▸ huv
          exact ⟨(List.cons.injEq .. ▸ huv :
            c = c₀ ∧ s = u ++ v).1.symm, (List.cons.injEq .. ▸ huv :
            c = c₀ ∧ s = u ++ v).2⟩
        exact Bool.or_eq_true_iff.mpr (Or.inr (ih.mpr ⟨u, v, rfl, hf⟩))

theorem gmatch_star_any (u : List Char) : gmatch [GTok.star] u = true := by
  induction u with
  | nil => rfl
  | cons c s ih =>
    show starAux (gmatch []) (c :: s) = true
    exact Bool.or_eq_true_iff.mpr (Or.inr ih)

theorem gmatch_append (ts₁ ts₂ : List GTok) (s : List Char) :
    gmatch (ts₁ ++ ts₂) s = true ↔
      ∃ u v, s = u ++ v ∧ gmatch ts₁ u = true ∧ gmatch ts₂ v = true := by
  induction ts₁ generalizing s with
  | nil =>
    simp only [List.nil_append]
    constructor
    · intro h
      exact ⟨[], s, rfl, rfl, h⟩
    · rintro ⟨u, v, rfl, hu, hv⟩
      rw [(gmatch_nil_iff u).mp hu]
      simpa using hv
  | cons t ts ih =>
    cases t with
    | star =>
      show starAux (gmatch (ts ++ ts₂)) s = true ↔ _
      rw [starAux_iff]
      constructor
      · rintro ⟨u, v, rfl, hv⟩
        rcases (ih v).mp hv with ⟨p, q, rfl, hp, hq⟩
        refine ⟨u ++ p, q, by simp, ?_, hq⟩
        show starAux (gmatch ts) (u ++ p) = true
        exact (starAux_iff _ _).mpr ⟨u, p, rfl, hp⟩
      · rintro ⟨u, v, rfl, hu, hv⟩
        have hu₂ : starAux (gmatch ts) u = true := hu
        rcases (starAux_iff _ _).mp hu₂ with ⟨a, b, rfl, hb⟩
        refine ⟨a, b ++ v, by simp, ?_⟩
        exact (ih _).mpr ⟨b, v, rfl, hb, hv⟩
    | anyOne =>
      cases s with
      | nil =>
        constructor
        · intro h
          exact absurd h (by simp [gmatch])
        · rintro ⟨u, v, huv, hu, hv⟩
          obtain ⟨rfl, rfl⟩ := List.append_eq_nil.mp huv.symm
          simp [gmatch] at hu
      | cons c s =>
        show gmatch (ts ++ ts₂) s = true ↔ _
        rw [ih]
        constructor
        · rintro ⟨u, v, rfl, hu, hv⟩
          exact ⟨c :: u, v, rfl, hu, hv⟩
        · rintro ⟨u, v, huv, hu, hv⟩
          cases u with
          | nil => simp [gmatch] at hu
          | cons c₀ u =>
            obtain ⟨rfl, rfl⟩ : c₀ = c ∧ s = u ++ v := by
              have h₂ := huv
              simp only [List.cons_append, List.cons.injEq] at h₂
              exact ⟨h₂.1.symm, h₂.2⟩
            exact ⟨u, v, rfl, hu, hv⟩
    | lit ch =>
      cases s with
      | nil =>
        constructor
        · intro h
          exact absurd h (by simp [gmatch])
        · rintro ⟨u, v, huv, hu, hv⟩
          obtain ⟨rfl, rfl⟩ := List.append_eq_nil.mp huv.symm
          simp [gmatch] at hu
      | cons c s =>
        show ((ch = c : Bool) && gmatch (ts ++ ts₂) s) = true ↔ _
        rw [Bool.and_eq_true, ih]
        constructor
        · rintro ⟨hc, u, v, rfl, hu, hv⟩
          refine ⟨c :: u, v, rfl, ?_, hv⟩
          show ((ch = c : Bool) && gmatch ts u) = true
          simp only [Bool.and_eq_true]
          exact ⟨hc, hu⟩
        · rintro ⟨u, v, huv, hu, hv⟩
          cases u with
          | nil => simp [gmatch] at hu
          | cons c₀ u =>
            obtain ⟨rfl, rfl⟩ : c₀ = c ∧ s = u ++ v := by
              have h₂ := huv
              simp only [List.cons_append, List.cons.injEq] at h₂
              exact ⟨h₂.1.symm, h₂.2⟩
            have hu₂ : ((ch = c₀ : Bool) && gmatch ts u) = true := hu
            rw [Bool.and_eq_true] at hu₂
            exact ⟨hu₂.1, u, v, rfl, hu₂.2, hv⟩

/-- `matchesGlob` succeeds iff the glob (anchored) matches some contiguous
substring of the subject. -/
theorem matchesGlob_iff (s p : String) :
    matchesGlob s p = true ↔
      ∃ u v w, s.data = u ++ (v ++ w) ∧ gmatch (parseGlob p.data) v = true := by
  show gmatch ([GTok.star] ++ (parseGlob p.data ++ [GTok.star])) s.data = true ↔ _
  rw [gmatch_append]
  constructor
  · rintro ⟨u, r, hs, _, hr⟩
    rcases (gmatch_append _ _ _).mp hr with ⟨v, w, rfl, hv, _⟩
    exact ⟨u, v, w, hs, hv⟩
  · rintro ⟨u, v, w, hs, hv⟩
    refine ⟨u, v ++ w, hs, gmatch_star_any u, ?_⟩
    exact (gmatch_append _ _ _).mpr ⟨v, w, rfl, hv, gmatch_star_any w⟩

/-! ### Claim C1 — registry load on a missing or corrupt store -/

/-- C1, counterexample: `readDb` on a corrupt (existing but unparsable)
store raises the JSON parse error to the caller instead of returning the
fresh empty registry, contrary to the claim that load never fails. -/
theorem C1_counterexample_readDb_corrupt :
    readDb DbStore.corrupt = Except.error "JSON parse error" ∧
      readDb DbStore.corrupt ≠ Except.ok emptyDb :=
  ⟨rfl, by simp [readDb]⟩

/-- C1, amended: `readDb` returns the fresh empty registry when the store
is missing and the persisted registry when it is present and well-formed,
but a corrupt store makes the parse error propagate to the caller (no ok
result exists for the corrupt case). -/
theorem C1_readDb_missing_empty_corrupt_raises :
    readDb DbStore.missing = Except.ok emptyDb ∧
      (∀ db, readDb (DbStore.wellFormed db) = Except.ok db) ∧
      (∀ db, readDb DbStore.corrupt ≠ Except.ok db) :=
  ⟨rfl, fun _ => rfl, fun _ h => by simp [readDb] at h⟩

/-! ### Claim C2 — glob matcher anchoring -/

/-- C2, counterexample: the claim states `matchesGlob "abc" "a?" = false`
(full anchoring), but the source tests the translated regex unanchored,
so it matches the substring `"ab"` and returns true. -/
theorem C2_counterexample_matchesGlob_unanchored :
    matchesGlob "abc" "a?" = true := by decide

/-- C2, amended: `*`, `?` and literals behave as claimed, but matching is
an unanchored substring search (as `RegExp.test` without anchors):
`matchesGlob s p` is true iff the pattern matches some contiguous
substring of `s`; in particular both `matchesGlob "ab" "a?"` and
`matchesGlob "abc" "a?"` are true. -/
theorem C2_matchesGlob_substring_search :
    (∀ s p : String, matchesGlob s p = true ↔
        ∃ u v w, s.data = u ++ (v ++ w) ∧ gmatch (parseGlob p.data) v = true) ∧
      matchesGlob "ab" "a?" = true ∧ matchesGlob "abc" "a?" = true :=
  ⟨matchesGlob_iff, by decide, by decide⟩

/-! ### Claim C4 — version filter -/

/-- C4: the version filter behaves as specified on all the claim's
decisive inputs — comma-separated AND semantics over `OP value` clauses,
numeric componentwise comparison with missing trailing components read as
0 (`"4" < "4.1"`, `"4.0" = "4"`), and any expression containing a clause
with no recognized operator (such as `"~4"`) evaluates to false without
raising. -/
theorem C4_matchesVersionFilter_spec :
    matchesVersionFilter "4.2" ">=4" = true ∧
      matchesVersionFilter "4.2" "<4" = false ∧
      matchesVersionFilter "5.0" ">=4,<6.5" = true ∧
      matchesVersionFilter "6.5" "<6.5" = false ∧
      matchesVersionFilter "3" "!=3" = false ∧
      compareVersions "4".data "4.1".data = some (-1) ∧
      compareVersions "4.0".data "4".data = some 0 ∧
      ∀ v e : String, "~4".data ∈ splitOnChar ',' e.data →
        matchesVersionFilter v e = false := by
  refine ⟨by decide, by decide, by decide, by decide, by decide, by decide, by decide, ?_⟩
  intro v e hmem
  have hbad : clauseHolds v.data "~4".data = false := rfl
  cases hall : matchesVersionFilter v e with
  | false => rfl
  | true =>
    have hmem₂ := List.all_eq_true.mp hall _ hmem
    rw [hbad] at hmem₂
    exact absurd hmem₂ (by decide)

/-- C4, witness: instantiating the malformed-clause component at a
concrete expression. -/
theorem C4_witness_malformed_clause :
    matchesVersionFilter "9" ">=1,~4" = false :=
  C4_matchesVersionFilter_spec.2.2.2.2.2.2.2 "9" ">=1,~4" (by decide)

namespace Server

/-! #### Injectivity of the form-urlencoded serializer

The serializer output decodes uniquely: codewords are a literal safe
character, `+` for space, or a run of `%XX` blocks carrying the UTF-8
bytes of one character, whose lead byte determines the run length. -/

theorem char_toNat_lt (c : Char) : c.toNat < 1114112 := by
  rcases c.valid with h | h
  · exact Nat.lt_trans h (by decide)
  · exact h.2

theorem char_toNat_inj {a b : Char} (h : a.toNat = b.toNat) : a = b := by
  have ha := Char.ofNat_toNat a
  rw [← ha, h, Char.ofNat_toNat]

theorem hexDigit_inj : ∀ m : Nat, m < 16 → ∀ n : Nat, n < 16 →
    hexDigit m = hexDigit n → m = n := by decide

theorem hexDigit_not_sep : ∀ n : Nat, n < 16 →
    hexDigit n ≠ '&' ∧ hexDigit n ≠ '=' ∧ hexDigit n ≠ '/' := by decide

theorem utf8Bytes_one {c : Char} (h : c.toNat < 0x80) : utf8Bytes c = [c.toNat] := by
  unfold utf8Bytes
  rw [if_pos h]

theorem utf8Bytes_two {c : Char} (h₁ : 0x80 ≤ c.toNat) (h₂ : c.toNat < 0x800) :
    utf8Bytes c = [0xC0 + c.toNat / 0x40, 0x80 + c.toNat % 0x40] := by
  unfold utf8Bytes
  rw [if_neg (by omega), if_pos h₂]

theorem utf8Bytes_three {c : Char} (h₁ : 0x800 ≤ c.toNat) (h₂ : c.toNat < 0x10000) :
    utf8Bytes c =
      [0xE0 + c.toNat / 0x1000, 0x80 + c.toNat / 0x40 % 0x40, 0x80 + c.toNat % 0x40] := by
  unfold utf8Bytes
  rw [if_neg (by omega), if_neg (by omega), if_pos h₂]

theorem utf8Bytes_four {c : Char} (h₁ : 0x10000 ≤ c.toNat) :
    utf8Bytes c =
      [0xF0 + c.toNat / 0x40000, 0x80 + c.toNat / 0x1000 % 0x40,
        0x80 + c.toNat / 0x40 % 0x40, 0x80 + c.toNat % 0x40] := by
  unfold utf8Bytes
  rw [if_neg (by omega), if_neg (by omega), if_neg (by omega)]

theorem utf8Bytes_lt (c : Char) : ∀ b ∈ utf8Bytes c, b < 256 := by
  intro b hb
  have hv := char_toNat_lt c
  have hcases : c.toNat < 0x80 ∨ (0x80 ≤ c.toNat ∧ c.toNat < 0x800) ∨
      (0x800 ≤ c.toNat ∧ c.toNat < 0x10000) ∨ 0x10000 ≤ c.toNat := by omega
  rcases hcases with h | ⟨h₁, h₂⟩ | ⟨h₁, h₂⟩ | h₁
  · rw [utf8Bytes_one h] at hb
    simp at hb
    omega
  · rw [utf8Bytes_two h₁ h₂] at hb
    simp at hb
    rcases hb with rfl | rfl <;> omega
  · rw [utf8Bytes_three h₁ h₂] at hb
    simp at hb
    rcases hb with rfl | rfl | rfl <;> omega
  · rw [utf8Bytes_four h₁] at hb
    simp at hb
    rcases hb with rfl | rfl | rfl | rfl <;> omega

theorem utf8Bytes_ne_nil (c : Char) : utf8Bytes c ≠ [] := by
  unfold utf8Bytes
  split
  · simp
  · split
    · simp
    · split <;> simp

theorem pctFlat_head (c : Char) : ∃ r, (utf8Bytes c).flatMap pctByte = '%' :: r := by
  cases hu : utf8Bytes c with
  | nil => exact absurd hu (utf8Bytes_ne_nil c)
  | cons b bs =>
    exact ⟨hexDigit (b / 16) :: hexDigit (b % 16) :: bs.flatMap pctByte, by simp [pctByte]⟩

/-- Cancellation of the leading `%XX` run: the lead byte's range pins the
run length, and the hex digits pin the bytes, hence the character. -/
theorem pct_cancel {a b : Char} {x y : List Char}
    (h : (utf8Bytes a).flatMap pctByte ++ x = (utf8Bytes b).flatMap pctByte ++ y) :
    a = b ∧ x = y := by
  have hva := char_toNat_lt a
  have hvb := char_toNat_lt b
  have hca : a.toNat < 0x80 ∨ (0x80 ≤ a.toNat ∧ a.toNat < 0x800) ∨
      (0x800 ≤ a.toNat ∧ a.toNat < 0x10000) ∨ 0x10000 ≤ a.toNat := by omega
  have hcb : b.toNat < 0x80 ∨ (0x80 ≤ b.toNat ∧ b.toNat < 0x800) ∨
      (0x800 ≤ b.toNat ∧ b.toNat < 0x10000) ∨ 0x10000 ≤ b.toNat := by omega
  rcases hca with ha | ⟨ha₁, ha₂⟩ | ⟨ha₁, ha₂⟩ | ha₁ <;>
    rcases hcb with hb | ⟨hb₁, hb₂⟩ | ⟨hb₁, hb₂⟩ | hb₁
  · rw [utf8Bytes_one ha, utf8Bytes_one hb] at h
    simp only [List.flatMap_cons, List.flatMap_nil, List.append_nil, pctByte,
      List.cons_append, List.nil_append, List.cons.injEq, true_and] at h
    obtain ⟨h₁, h₂, h₃⟩ := h
    have e₁ := hexDigit_inj _ (by omega) _ (by omega) h₁
    have e₂ := hexDigit_inj _ (by omega) _ (by omega) h₂
    exact ⟨char_toNat_inj (by omega), h₃⟩
  · rw [utf8Bytes_one ha, utf8Bytes_two hb₁ hb₂] at h
    simp only [List.flatMap_cons, List.flatMap_nil, List.append_nil, pctByte,
      List.cons_append, List.nil_append, List.cons.injEq, true_and] at h
    have e₁ := hexDigit_inj _ (by omega) _ (by omega) h.1
    omega
  · rw [utf8Bytes_one ha, utf8Bytes_three hb₁ hb₂] at h
    simp only [List.flatMap_cons, List.flatMap_nil, List.append_nil, pctByte,
      List.cons_append, List.nil_append, List.cons.injEq, true_and] at h
    have e₁ := hexDigit_inj _ (by omega) _ (by omega) h.1
    omega
  · rw [utf8Bytes_one ha, utf8Bytes_four hb₁] at h
    simp only [List.flatMap_cons, List.flatMap_nil, List.append_nil, pctByte,
      List.cons_append, List.nil_append, List.cons.injEq, true_and] at h
    have e₁ := hexDigit_inj _ (by omega) _ (by omega) h.1
    omega
  · rw [utf8Bytes_two ha₁ ha₂, utf8Bytes_one hb] at h
    simp only [List.flatMap_cons, List.flatMap_nil, List.append_nil, pctByte,
      List.cons_append, List.nil_append, List.cons.injEq, true_and] at h
    have e₁ := hexDigit_inj _ (by omega) _ (by omega) h.1
    omega
  · rw [utf8Bytes_two ha₁ ha₂, utf8Bytes_two hb₁ hb₂] at h
    simp only [List.flatMap_cons, List.flatMap_nil, List.append_nil, pctByte,
      List.cons_append, List.nil_append, List.cons.injEq, true_and] at h
    obtain ⟨h₁, h₂, h₃, h₄, h₅⟩ := h
    have e₁ := hexDigit_inj _ (by omega) _ (by omega) h₁
    have e₂ := hexDigit_inj _ (by omega) _ (by omega) h₂
    have e₃ := hexDigit_inj _ (by omega) _ (by omega) h₃
    have e₄ := hexDigit_inj _ (by omega) _ (by omega) h₄
    exact ⟨char_toNat_inj (by omega), h₅⟩
  · rw [utf8Bytes_two ha₁ ha₂, utf8Bytes_three hb₁ hb₂] at h
    simp only [List.flatMap_cons, List.flatMap_nil, List.append_nil, pctByte,
      List.cons_append, List.nil_append, List.cons.injEq, true_and] at h
    have e₁ := hexDigit_inj _ (by omega) _ (by omega) h.1
    omega
  · rw [utf8Bytes_two ha₁ ha₂, utf8Bytes_four hb₁] at h
    simp only [List.flatMap_cons, List.flatMap_nil, List.append_nil, pctByte,
      List.cons_append, List.nil_append, List.cons.injEq, true_and] at h
    have e₁ := hexDigit_inj _ (by omega) _ (by omega) h.1
    omega
  · rw [utf8Bytes_three ha₁ ha₂, utf8Bytes_one hb] at h
    simp only [List.flatMap_cons, List.flatMap_nil, List.append_nil, pctByte,
      List.cons_append, List.nil_append, List.cons.injEq, true_and] at h
    have e₁ := hexDigit_inj _ (by omega) _ (by omega) h.1
    omega
  · rw [utf8Bytes_three ha₁ ha₂, utf8Bytes_two hb₁ hb₂] at h
    simp only [List.flatMap_cons, List.flatMap_nil, List.append_nil, pctByte,
      List.cons_append, List.nil_append, List.cons.injEq, true_and] at h
    have e₁ := hexDigit_inj _ (by omega) _ (by omega) h.1
    omega
  · rw [utf8Bytes_three ha₁ ha₂, utf8Bytes_three hb₁ hb₂] at h
    simp only [List.flatMap_cons, List.flatMap_nil, List.append_nil, pctByte,
      List.cons_append, List.nil_append, List.cons.injEq, true_and] at h
    obtain ⟨h₁, h₂, h₃, h₄, h₅, h₆, h₇⟩ := h
    have e₁ := hexDigit_inj _ (by omega) _ (by omega) h₁
    have e₂ := hexDigit_inj _ (by omega) _ (by omega) h₂
    have e₃ := hexDigit_inj _ (by omega) _ (by omega) h₃
    have e₄ := hexDigit_inj _ (by omega) _ (by omega) h₄
    have e₅ := hexDigit_inj _ (by omega) _ (by omega) h₅
    have e₆ := hexDigit_inj _ (by omega) _ (by omega) h₆
    exact ⟨char_toNat_inj (by omega), h₇⟩
  · rw [utf8Bytes_three ha₁ ha₂, utf8Bytes_four hb₁] at h
    simp only [List.flatMap_cons, List.flatMap_nil, List.append_nil, pctByte,
      List.cons_append, List.nil_append, List.cons.injEq, true_and] at h
    have e₁ := hexDigit_inj _ (by omega) _ (by omega) h.1
    omega
  · rw [utf8Bytes_four ha₁, utf8Bytes_one hb] at h
    simp only [List.flatMap_cons, List.flatMap_nil, List.append_nil, pctByte,
      List.cons_append, List.nil_append, List.cons.injEq, true_and] at h
    have e₁ := hexDigit_inj _ (by omega) _ (by omega) h.1
    omega
  · rw [utf8Bytes_four ha₁, utf8Bytes_two hb₁ hb₂] at h
    simp only [List.flatMap_cons, List.flatMap_nil, List.append_nil, pctByte,
      List.cons_append, List.nil_append, List.cons.injEq, true_and] at h
    have e₁ := hexDigit_inj _ (by omega) _ (by omega) h.1
    omega
  · rw [utf8Bytes_four ha₁, utf8Bytes_three hb₁ hb₂] at h
    simp only [List.flatMap_cons, List.flatMap_nil, List.append_nil, pctByte,
      List.cons_append, List.nil_append, List.cons.injEq, true_and] at h
    have e₁ := hexDigit_inj _ (by omega) _ (by omega) h.1
    omega
  · rw [utf8Bytes_four ha₁, utf8Bytes_four hb₁] at h
    simp only [List.flatMap_cons, List.flatMap_nil, List.append_nil, pctByte,
      List.cons_append, List.nil_append, List.cons.injEq, true_and] at h
    obtain ⟨h₁, h₂, h₃, h₄, h₅, h₆, h₇, h₈, h₉⟩ := h
    have e₁ := hexDigit_inj _ (by omega) _ (by omega) h₁
    have e₂ := hexDigit_inj _ (by omega) _ (by omega) h₂
    have e₃ := hexDigit_inj _ (by omega) _ (by omega) h₃
    have e₄ := hexDigit_inj _ (by omega) _ (by omega) h₄
    have e₅ := hexDigit_inj _ (by omega) _ (by omega) h₅
    have e₆ := hexDigit_inj _ (by omega) _ (by omega) h₆
    have e₇ := hexDigit_inj _ (by omega) _ (by omega) h₇
    have e₈ := hexDigit_inj _ (by omega) _ (by omega) h₈
    exact ⟨char_toNat_inj (by omega), h₉⟩

theorem isFormSafe_not_plus {c : Char} (h : isFormSafe c = true) : c ≠ '+' := by
  rintro rfl
  exact absurd h (by decide)

theorem isFormSafe_not_pct {c : Char} (h : isFormSafe c = true) : c ≠ '%' := by
  rintro rfl
  exact absurd h (by decide)

/-- Codeword cancellation for the form encoder: the encodings of two
characters followed by arbitrary tails agree only if the characters (and
the tails) agree. -/
theorem formEncodeChar_cancel {a b : Char} {x y : List Char}
    (h : formEncodeChar a ++ x = formEncodeChar b ++ y) : a = b ∧ x = y := by
  unfold formEncodeChar at h
  by_cases hA : isFormSafe a = true
  · rw [if_pos hA] at h
    by_cases hB : isFormSafe b = true
    · rw [if_pos hB] at h
      simpa using h
    · rw [if_neg hB] at h
      by_cases hB₂ : b = ' '
      · rw [if_pos hB₂] at h
        simp only [List.cons_append, List.nil_append, List.cons.injEq] at h
        exact absurd h.1 (isFormSafe_not_plus hA)
      · rw [if_neg hB₂] at h
        obtain ⟨r, hr⟩ := pctFlat_head b
        rw [hr] at h
        simp only [List.cons_append, List.nil_append, List.cons.injEq] at h
        exact absurd h.1 (isFormSafe_not_pct hA)
  · rw [if_neg hA] at h
    by_cases hA₂ : a = ' '
    · rw [if_pos hA₂] at h
      by_cases hB : isFormSafe b = true
      · rw [if_pos hB] at h
        simp only [List.cons_append, List.nil_append, List.cons.injEq] at h
        exact absurd h.1.symm (isFormSafe_not_plus hB)
      · rw [if_neg hB] at h
        by_cases hB₂ : b = ' '
        · rw [if_pos hB₂] at h
          simp only [List.cons_append, List.nil_append, List.cons.injEq] at h
          exact ⟨hA₂.trans hB₂.symm, h.2⟩
        · rw [if_neg hB₂] at h
          obtain ⟨r, hr⟩ := pctFlat_head b
          rw [hr] at h
          simp only [List.cons_append, List.nil_append, List.cons.injEq] at h
          exact absurd h.1 (by decide)
    · rw [if_neg hA₂] at h
      obtain ⟨ra, hra⟩ := pctFlat_head a
      by_cases hB : isFormSafe b = true
      · rw [if_pos hB, hra] at h
        simp only [List.cons_append, List.nil_append, List.cons.injEq] at h
        exact absurd h.1.symm (isFormSafe_not_pct hB)
      · rw [if_neg hB] at h
        by_cases hB₂ : b = ' '
        · rw [if_pos hB₂, hra] at h
          simp only [List.cons_append, List.nil_append, List.cons.injEq] at h
          exact absurd h.1 (by decide)
        · rw [if_neg hB₂] at h
          exact pct_cancel h

theorem formEncodeChar_ne_nil (c : Char) : formEncodeChar c ≠ [] := by
  unfold formEncodeChar
  by_cases hA : isFormSafe c = true
  · rw [if_pos hA]
    simp
  · rw [if_neg hA]
    by_cases hA₂ : c = ' '
    · rw [if_pos hA₂]
      simp
    · rw [if_neg hA₂]
      obtain ⟨r, hr⟩ := pctFlat_head c
      rw [hr]
      simp

theorem formEncode_inj : ∀ {s t : List Char}, formEncode s = formEncode t → s = t := by
  intro s
  induction s with
  | nil =>
    intro t h
    cases t with
    | nil => rfl
    | cons d t =>
      exfalso
      have : formEncodeChar d ++ t.flatMap formEncodeChar = [] := by
        simpa [formEncode] using h.symm
      exact formEncodeChar_ne_nil d (List.append_eq_nil.mp this).1
  | cons c s ih =>
    intro t h
    cases t with
    | nil =>
      exfalso
      have : formEncodeChar c ++ s.flatMap formEncodeChar = [] := by
        simpa [formEncode] using h
      exact formEncodeChar_ne_nil c (List.append_eq_nil.mp this).1
    | cons d t =>
      have h₂ : formEncodeChar c ++ formEncode s = formEncodeChar d ++ formEncode t := by
        simpa [formEncode] using h
      obtain ⟨rfl, h₃⟩ := formEncodeChar_cancel h₂
      rw [ih h₃]

/-- Every character of a form-encoded string is a safe literal, `+`, `%`,
or a hex digit; in particular `&`, `=` and `/` never occur. -/
theorem formEncode_chars {d : Char} {s : List Char} (h : d ∈ formEncode s) :
    d ≠ '&' ∧ d ≠ '=' ∧ d ≠ '/' := by
  rcases List.mem_flatMap.mp h with ⟨c, _, hd⟩
  unfold formEncodeChar at hd
  by_cases hA : isFormSafe c = true
  · rw [if_pos hA] at hd
    simp at hd
    subst hd
    refine ⟨?_, ?_, ?_⟩ <;> rintro rfl <;> exact absurd hA (by decide)
  · rw [if_neg hA] at hd
    by_cases hA₂ : c = ' '
    · rw [if_pos hA₂] at hd
      simp at hd
      subst hd
      exact ⟨by decide, by decide, by decide⟩
    · rw [if_neg hA₂] at hd
      rcases List.mem_flatMap.mp hd with ⟨b, hb, hdb⟩
      have hblt := utf8Bytes_lt c b hb
      simp [pctByte] at hdb
      rcases hdb with rfl | rfl | rfl
      · exact ⟨by decide, by decide, by decide⟩
      · exact hexDigit_not_sep _ (by omega)
      · exact hexDigit_not_sep _ (by omega)

/-- Splitting a concatenation at a separator that occurs in neither
prefix. -/
theorem append_sep_cancel {α : Type} {c : α} :
    ∀ {A₁ A₂ B₁ B₂ : List α}, A₁ ++ c :: B₁ = A₂ ++ c :: B₂ →
      c ∉ A₁ → c ∉ A₂ → A₁ = A₂ ∧ B₁ = B₂ := by
  intro A₁
  induction A₁ with
  | nil =>
    intro A₂ B₁ B₂ h h₁ h₂
    cases A₂ with
    | nil => simpa using h
    | cons a A₂ =>
      simp only [List.nil_append, List.cons_append, List.cons.injEq] at h
      exact absurd (List.mem_cons.mpr (Or.inl h.1)) h₂
  | cons a A₁ ih =>
    intro A₂ B₁ B₂ h h₁ h₂
    cases A₂ with
    | nil =>
      simp only [List.cons_append, List.nil_append, List.cons.injEq] at h
      exact absurd (List.mem_cons.mpr (Or.inl h.1.symm)) h₁
    | cons b A₂ =>
      simp only [List.cons_append, List.cons.injEq] at h
      obtain ⟨rfl, h₃⟩ := h
      have h₁₂ : c ∉ A₁ := fun hm => h₁ (List.mem_cons.mpr (Or.inr hm))
      have h₂₂ : c ∉ A₂ := fun hm => h₂ (List.mem_cons.mpr (Or.inr hm))
      obtain ⟨rfl, h₄⟩ := ih h₃ h₁₂ h₂₂
      exact ⟨rfl, h₄⟩

theorem eq_not_mem_formEncode (s : List Char) : '=' ∉ formEncode s :=
  fun hm => (formEncode_chars hm).2.1 rfl

theorem serItem_inj {p q : List Char × List Char} (h : serItem p = serItem q) : p = q := by
  unfold serItem at h
  obtain ⟨h₁, h₂⟩ :=
    append_sep_cancel h (eq_not_mem_formEncode p.1) (eq_not_mem_formEncode q.1)
  exact Prod.ext (formEncode_inj h₁) (formEncode_inj h₂)

theorem amp_not_mem_serItem (p : List Char × List Char) : '&' ∉ serItem p := by
  unfold serItem
  intro hm
  rcases List.mem_append.mp hm with hm | hm
  · exact (formEncode_chars hm).1 rfl
  · rcases List.mem_cons.mp hm with he | hm
    · exact absurd he (by decide)
    · exact (formEncode_chars hm).1 rfl

theorem serItem_ne_nil (p : List Char × List Char) : serItem p ≠ [] := by
  unfold serItem
  intro h
  have := (List.append_eq_nil.mp h).2
  exact List.noConfusion this

theorem serParams_ne_nil (q : List Char × List Char) (qs : List (List Char × List Char)) :
    serParams (q :: qs) ≠ [] := by
  cases qs with
  | nil => exact serItem_ne_nil q
  | cons q₂ qs =>
    show serItem q ++ '&' :: serParams (q₂ :: qs) ≠ []
    intro h
    have := (List.append_eq_nil.mp h).2
    exact List.noConfusion this

theorem serParams_inj :
    ∀ {ps qs : List (List Char × List Char)}, serParams ps = serParams qs → ps = qs := by
  intro ps
  induction ps with
  | nil =>
    intro qs h
    cases qs with
    | nil => rfl
    | cons q qs => exact absurd h.symm (serParams_ne_nil q qs)
  | cons p ps ih =>
    intro qs h
    cases qs with
    | nil => exact absurd h (serParams_ne_nil p ps)
    | cons q qs =>
      cases ps with
      | nil =>
        cases qs with
        | nil => rw [serItem_inj (h : serItem p = serItem q)]
        | cons q₂ qs =>
          exfalso
          have h₂ : serItem p = serItem q ++ '&' :: serParams (q₂ :: qs) := h
          have hmem : '&' ∈ serItem p := by
            rw [h₂]
            simp
          exact amp_not_mem_serItem p hmem
      | cons p₂ ps =>
        cases qs with
        | nil =>
          exfalso
          have h₂ : serItem p ++ '&' :: serParams (p₂ :: ps) = serItem q := h
          have hmem : '&' ∈ serItem q := by
            rw [← h₂]
            simp
          exact amp_not_mem_serItem q hmem
        | cons q₂ qs =>
          have h₂ : serItem p ++ '&' :: serParams (p₂ :: ps) =
              serItem q ++ '&' :: serParams (q₂ :: qs) := h
          obtain ⟨h₃, h₄⟩ :=
            append_sep_cancel h₂ (amp_not_mem_serItem p) (amp_not_mem_serItem q)
          rw [serItem_inj h₃, ih h₄]

theorem insertParam_ne_nil (p : List Char × List Char)
    (ps : List (List Char × List Char)) : insertParam p ps ≠ [] := by
  cases ps with
  | nil => simp [insertParam]
  | cons q rest =>
    unfold insertParam
    split <;> simp

theorem sortParams_nil_iff (ps : List (List Char × List Char)) :
    sortParams ps = [] ↔ ps = [] := by
  cases ps with
  | nil => simp [sortParams]
  | cons p rest =>
    constructor
    · intro h
      exact absurd h (insertParam_ne_nil p (sortParams rest))
    · intro h
      exact absurd h (by simp)

/-- Same pathname and same sorted query parameters yield the same key. -/
theorem urlToPath_deterministic (u v : ParsedUrl) (hp : u.pathname = v.pathname)
    (hq : sortParams u.query = sortParams v.query) : urlToPath u = urlToPath v := by
  have hbase : pathBase u = pathBase v := by
    unfold pathBase
    rw [hp]
  have hnil : u.query = [] ↔ v.query = [] := by
    have h₁ : sortParams u.query = [] ↔ sortParams v.query = [] := by rw [hq]
    exact ⟨fun h => (sortParams_nil_iff _).mp (h₁.mp ((sortParams_nil_iff _).mpr h)),
      fun h => (sortParams_nil_iff _).mp (h₁.mpr ((sortParams_nil_iff _).mpr h))⟩
  unfold urlToPath
  by_cases h₁ : u.query = []
  · rw [if_pos h₁, if_pos (hnil.mp h₁), hbase]
  · rw [if_neg h₁, if_neg (fun h => h₁ (hnil.mpr h)), hbase, hq]

/-- Distinct (sorted) query-parameter lists on the same pathname yield
distinct keys. -/
theorem urlToPath_query_inj (path : List Char) (q₁ q₂ : List (List Char × List Char))
    (h : sortParams q₁ ≠ sortParams q₂) :
    urlToPath ⟨path, q₁⟩ ≠ urlToPath ⟨path, q₂⟩ := by
  intro he
  unfold urlToPath at he
  have he₂ := List.append_cancel_right he
  have hb : pathBase ⟨path, q₁⟩ = pathBase ⟨path, q₂⟩ := rfl
  rw [hb] at he₂
  by_cases h₁ : q₁ = [] <;> by_cases h₂ : q₂ = []
  · exact h (by rw [h₁, h₂])
  · rw [if_pos h₁, if_neg h₂] at he₂
    have hlen := congrArg List.length he₂
    simp [List.length_append] at hlen
  · rw [if_neg h₁, if_pos h₂] at he₂
    have hlen := congrArg List.length he₂
    simp [List.length_append] at hlen
  · rw [if_neg h₁, if_neg h₂] at he₂
    have he₃ := List.append_cancel_left he₂
    exact h (serParams_inj he₃)

theorem mem_replaceSlashes {c : Char} {l : List Char} (h : c ∈ replaceSlashes l) :
    c ≠ '/' := by
  rcases List.mem_flatMap.mp h with ⟨c₀, _, hc⟩
  by_cases h₀ : c₀ = '/'
  · rw [if_pos h₀] at hc
    simp at hc
    subst hc
    decide
  · rw [if_neg h₀] at hc
    simp at hc
    subst hc
    exact h₀

theorem mem_stripHtmlSuffix {c : Char} {l : List Char} (h : c ∈ stripHtmlSuffix l) :
    c ∈ l := by
  unfold stripHtmlSuffix at h
  split at h
  · exact List.take_subset _ _ h
  · split at h
    · exact List.take_subset _ _ h
    · exact h

theorem slash_not_mem_serItem (p : List Char × List Char) : '/' ∉ serItem p := by
  unfold serItem
  intro hm
  rcases List.mem_append.mp hm with hm | hm
  · exact (formEncode_chars hm).2.2 rfl
  · rcases List.mem_cons.mp hm with he | hm
    · exact absurd he (by decide)
    · exact (formEncode_chars hm).2.2 rfl

theorem slash_not_mem_serParams : ∀ ps, '/' ∉ serParams ps := by
  intro ps
  induction ps with
  | nil => simp [serParams]
  | cons p rest ih =>
    cases rest with
    | nil => exact slash_not_mem_serItem p
    | cons q rest₂ =>
      show '/' ∉ serItem p ++ '&' :: serParams (q :: rest₂)
      intro hm
      rcases List.mem_append.mp hm with hm | hm
      · exact slash_not_mem_serItem p hm
      · rcases List.mem_cons.mp hm with he | hm
        · exact absurd he (by decide)
        · exact ih hm

theorem slash_not_mem_urlToPath (u : ParsedUrl) : '/' ∉ urlToPath u := by
  have hbase : '/' ∉ pathBase u := fun hm =>
    mem_replaceSlashes (mem_stripHtmlSuffix hm) rfl
  unfold urlToPath
  intro hm
  rcases List.mem_append.mp hm with hm | hm
  · by_cases h₁ : u.query = []
    · rw [if_pos h₁] at hm
      exact hbase hm
    · rw [if_neg h₁] at hm
      rcases List.mem_append.mp hm with hm | hm
      · rcases List.mem_append.mp hm with hm | hm
        · exact hbase hm
        · exact absurd hm (by decide)
      · exact slash_not_mem_serParams _ hm
  · exact absurd hm (by decide)

end Server

/-! ### Claim C3 — PageKey derivation determinism and collisions -/

/-- C3, counterexample: the claim that no two distinct logical pages map
to the same key is false — the distinct pathnames `/a/b` and `/a__b`
(both without query) produce the identical key `a__b.md`, because the
slash-to-`__` replacement is not injective. -/
theorem C3_counterexample_urlToPath_collision :
    Server.urlToPath ⟨"/a/b".data, []⟩ = Server.urlToPath ⟨"/a__b".data, []⟩ ∧
      "/a/b".data ≠ "/a__b".data :=
  ⟨by decide, by decide⟩

/-- C3, amended: `urlToPath` is a pure, deterministic, total function of
the pathname and the sorted query-parameter list (so the same logical
page always yields the same key, whatever order its parameters arrive
in), and two distinct sorted query-parameter lists for the same path
yield distinct keys; but distinct paths can collide (see the
counterexample: `/`→`__` replacement and `.html` stripping are not
injective). -/
theorem C3_urlToPath_deterministic_and_query_injective :
    (∀ u v : Server.ParsedUrl, u.pathname = v.pathname →
        Server.sortParams u.query = Server.sortParams v.query →
          Server.urlToPath u = Server.urlToPath v) ∧
      ∀ (path : List Char) (q₁ q₂ : List (List Char × List Char)),
        Server.sortParams q₁ ≠ Server.sortParams q₂ →
          Server.urlToPath ⟨path, q₁⟩ ≠ Server.urlToPath ⟨path, q₂⟩ :=
  ⟨Server.urlToPath_deterministic, Server.urlToPath_query_inj⟩

/-- C3, witness: the same page with its two query parameters given in
either order gets one key, and changing a parameter value changes the
key. -/
theorem C3_witness_urlToPath :
    Server.urlToPath ⟨"/p".data, [("b".data, "1".data), ("a".data, "2".data)]⟩ =
        Server.urlToPath ⟨"/p".data, [("a".data, "2".data), ("b".data, "1".data)]⟩ ∧
      Server.urlToPath ⟨"/p".data, [("a".data, "1".data)]⟩ ≠
        Server.urlToPath ⟨"/p".data, [("a".data, "2".data)]⟩ :=
  ⟨C3_urlToPath_deterministic_and_query_injective.1 ⟨_, _⟩ ⟨_, _⟩ rfl (by decide),
    C3_urlToPath_deterministic_and_query_injective.2 _ _ _ (by decide)⟩

/-! ### Claim C10 — cache file names are flat `.md` names -/

/-- C10: for every parsed URL the derived cache file name ends in `.md`
and contains no `/` separator, so `writeCache` (which joins the cache
directory, `pages`, and this name) always targets a single file directly
inside the `pages` subdirectory. -/
theorem C10_urlToPath_flat_md_name (u : Server.ParsedUrl) :
    (∃ pre, Server.urlToPath u = pre ++ ".md".data) ∧ '/' ∉ Server.urlToPath u :=
  ⟨⟨_, rfl⟩, Server.slash_not_mem_urlToPath u⟩

/-! ### Populate pipeline lemmas -/

namespace Populate

/-- The exact fetch condition of the code's guard, spelled out: a link is
*not* skipped iff its entry is absent, its `fetchedAt` is `null` or `0`,
or it is at least `ttl` old. -/
theorem shouldSkip_false_iff (now ttl : Int) (e : Option PageEntry) :
    shouldSkip now ttl e = false ↔
      e = none ∨ ∃ en, e = some en ∧
        (en.fetchedAt = none ∨ en.fetchedAt = some 0 ∨
          ∃ t, en.fetchedAt = some t ∧ ttl ≤ now - t) := by
  cases e with
  | none => simp [shouldSkip]
  | some en =>
    cases hf : en.fetchedAt with
    | none => simp [shouldSkip, hf]
    | some t =>
      simp only [shouldSkip, hf, Option.some.injEq, reduceCtorEq, false_or,
        Bool.and_eq_false_iff, decide_eq_false_iff_not, not_not, not_lt,
        exists_eq_left']

end Populate

namespace Populate

theorem fetchAndCache_skip {now ttl tmark : Int} {oracle : FetchOracle} {st : RunState}
    {l : Link} (h : shouldSkip now ttl (st.db.pages l.href) = true) :
    fetchAndCache now ttl tmark oracle st l = { st with skipped := st.skipped + 1 } := by
  unfold fetchAndCache
  rw [if_pos h]

theorem fetchAndCache_err {now ttl tmark : Int} {oracle : FetchOracle} {st : RunState}
    {l : Link} (hskip : shouldSkip now ttl (st.db.pages l.href) = false)
    (ho : oracle l.href = none) :
    fetchAndCache now ttl tmark oracle st l = { st with errors := st.errors + 1 } := by
  unfold fetchAndCache
  rw [if_neg (by simp [hskip]), ho]

theorem fetchAndCache_ok {now ttl tmark : Int} {oracle : FetchOracle} {st : RunState}
    {l : Link} {p : FetchedPage} (hskip : shouldSkip now ttl (st.db.pages l.href) = false)
    (ho : oracle l.href = some p) :
    fetchAndCache now ttl tmark oracle st l =
      { st with
          cache := setCache st.cache l.href (renderContent p),
          db := { st.db with pages := setPage st.db.pages l.href ⟨l.title, some tmark⟩ },
          fetched := st.fetched + 1 } := by
  unfold fetchAndCache
  rw [if_neg (by simp [hskip]), ho]

/-- The step touches the registry and content store only at its own key,
and never touches `populatedAt` or the initial skip counter when the key
is not fresh. -/
theorem fetchAndCache_other_key {now ttl tmark : Int} {oracle : FetchOracle} {st : RunState}
    {l : Link} (k : String) (hk : k ≠ l.href) :
    (fetchAndCache now ttl tmark oracle st l).db.pages k = st.db.pages k ∧
      (fetchAndCache now ttl tmark oracle st l).cache k = st.cache k := by
  by_cases hs : shouldSkip now ttl (st.db.pages l.href) = true
  · rw [fetchAndCache_skip hs]
    exact ⟨rfl, rfl⟩
  · have hskip : shouldSkip now ttl (st.db.pages l.href) = false := by
      cases h₂ : shouldSkip now ttl (st.db.pages l.href)
      · rfl
      · exact absurd h₂ hs
    cases ho : oracle l.href with
    | none =>
      rw [fetchAndCache_err hskip ho]
      exact ⟨rfl, rfl⟩
    | some p =>
      rw [fetchAndCache_ok hskip ho]
      exact ⟨by simp [setPage, hk], by simp [setCache, hk]⟩

theorem fetchAndCache_populatedAt {now ttl tmark : Int} {oracle : FetchOracle}
    {st : RunState} {l : Link} :
    (fetchAndCache now ttl tmark oracle st l).db.populatedAt = st.db.populatedAt := by
  unfold fetchAndCache
  split
  · rfl
  · cases oracle l.href <;> rfl

/-- Behaviour of the fetch phase as a fold, for a run in which every
selected key is eligible (non-fresh) and keys are pairwise distinct:
counters add up per fetch outcome, succeeded keys get fresh entries,
failed keys keep their registry entry, other keys and `populatedAt` are
untouched. -/
theorem foldRun_spec (now ttl tmark : Int) (oracle : FetchOracle) :
    ∀ (links : List Link) (st : RunState),
      (links.map Link.href).Nodup →
      (∀ l ∈ links, shouldSkip now ttl (st.db.pages l.href) = false) →
      (links.foldl (fetchAndCache now ttl tmark oracle) st).errors =
          st.errors + (links.filter (fun l => (oracle l.href).isNone)).length ∧
      (links.foldl (fetchAndCache now ttl tmark oracle) st).fetched =
          st.fetched + (links.filter (fun l => (oracle l.href).isSome)).length ∧
      (links.foldl (fetchAndCache now ttl tmark oracle) st).skipped = st.skipped ∧
      (∀ l ∈ links, oracle l.href = none →
        (links.foldl (fetchAndCache now ttl tmark oracle) st).db.pages l.href =
          st.db.pages l.href) ∧
      (∀ l ∈ links, (oracle l.href).isSome →
        (links.foldl (fetchAndCache now ttl tmark oracle) st).db.pages l.href =
          some ⟨l.title, some tmark⟩) ∧
      (∀ k, k ∉ links.map Link.href →
        (links.foldl (fetchAndCache now ttl tmark oracle) st).db.pages k =
          st.db.pages k) ∧
      (links.foldl (fetchAndCache now ttl tmark oracle) st).db.populatedAt =
        st.db.populatedAt := by
  intro links
  induction links with
  | nil =>
    intro st _ _
    exact ⟨by simp, by simp, rfl, by simp, by simp, fun k _ => rfl, rfl⟩
  | cons l ls ih =>
    intro st hnd hstale
    have hnd₂ := hnd
    rw [List.map_cons, List.nodup_cons] at hnd₂
    obtain ⟨hout, hndtl⟩ := hnd₂
    have hl : shouldSkip now ttl (st.db.pages l.href) = false := hstale l (by simp)
    have hpres : ∀ l₂ : Link, l₂.href ≠ l.href →
        (fetchAndCache now ttl tmark oracle st l).db.pages l₂.href =
          st.db.pages l₂.href := fun l₂ hk => (fetchAndCache_other_key l₂.href hk).1
    have hstale₂ : ∀ l₂ ∈ ls, shouldSkip now ttl
        ((fetchAndCache now ttl tmark oracle st l).db.pages l₂.href) = false := by
      intro l₂ hm
      have hne : l₂.href ≠ l.href := by
        intro he
        exact hout (he ▸ List.mem_map_of_mem Link.href hm)
      rw [(fetchAndCache_other_key l₂.href hne).1]
      exact hstale l₂ (List.mem_cons.mpr (Or.inr hm))
    obtain ⟨e₁, e₂, e₃, e₄, e₅, e₆, e₇⟩ :=
      ih (fetchAndCache now ttl tmark oracle st l) hndtl hstale₂
    have hfold : (l :: ls).foldl (fetchAndCache now ttl tmark oracle) st =
        ls.foldl (fetchAndCache now ttl tmark oracle)
          (fetchAndCache now ttl tmark oracle st l) := rfl
    rw [hfold]
    cases ho : oracle l.href with
    | none =>
      have hstep := @fetchAndCache_err now ttl tmark oracle st l hl ho
      refine ⟨?_, ?_, ?_, ?_, ?_, ?_, ?_⟩
      · rw [e₁, hstep]
        simp [List.filter_cons, ho]
        omega
      · rw [e₂, hstep]
        simp [List.filter_cons, ho]
      · rw [e₃, hstep]
      · intro l₂ hm ho₂
        rcases List.mem_cons.mp hm with rfl | hm
        · have hnotin : l₂.href ∉ ls.map Link.href := hout
          rw [e₆ l₂.href hnotin, hstep]
        · exact (e₄ l₂ hm ho₂).trans (hpres l₂ (by
            intro he
            exact hout (he ▸ List.mem_map_of_mem Link.href hm)))
      · intro l₂ hm ho₂
        rcases List.mem_cons.mp hm with rfl | hm
        · rw [ho] at ho₂
          exact absurd ho₂ (by simp)
        · exact e₅ l₂ hm ho₂
      · intro k hk
        have hk₁ : k ≠ l.href := by
          intro he
          exact hk (he ▸ List.mem_cons.mpr (Or.inl rfl))
        have hk₂ : k ∉ ls.map Link.href := by
          intro hm
          exact hk (List.mem_cons.mpr (Or.inr hm))
        rw [e₆ k hk₂]
        exact (fetchAndCache_other_key k hk₁).1
      · rw [e₇]
        exact fetchAndCache_populatedAt
    | some p =>
      have hstep := @fetchAndCache_ok now ttl tmark oracle st l p hl ho
      refine ⟨?_, ?_, ?_, ?_, ?_, ?_, ?_⟩
      · rw [e₁, hstep]
        simp [List.filter_cons, ho]
      · rw [e₂, hstep]
        simp [List.filter_cons, ho]
        omega
      · rw [e₃, hstep]
      · intro l₂ hm ho₂
        rcases List.mem_cons.mp hm with rfl | hm
        · rw [ho] at ho₂
          exact absurd ho₂ (by simp)
        · exact (e₄ l₂ hm ho₂).trans (hpres l₂ (by
            intro he
            exact hout (he ▸ List.mem_map_of_mem Link.href hm)))
      · intro l₂ hm ho₂
        rcases List.mem_cons.mp hm with rfl | hm
        · have hnotin : l₂.href ∉ ls.map Link.href := hout
          rw [e₆ l₂.href hnotin, hstep]
          simp [setPage]
        · exact e₅ l₂ hm ho₂
      · intro k hk
        have hk₁ : k ≠ l.href := by
          intro he
          exact hk (he ▸ List.mem_cons.mpr (Or.inl rfl))
        have hk₂ : k ∉ ls.map Link.href := by
          intro hm
          exact hk (List.mem_cons.mpr (Or.inr hm))
        rw [e₆ k hk₂]
        exact (fetchAndCache_other_key k hk₁).1
      · rw [e₇]
        exact fetchAndCache_populatedAt

/-- Counting fetch outcomes when exactly one key fails. -/
theorem filter_single_failure (oracle : FetchOracle) :
    ∀ (links : List Link) (f : Link),
      (links.map Link.href).Nodup → f ∈ links → oracle f.href = none →
      (∀ l ∈ links, l ≠ f → (oracle l.href).isSome) →
      (links.filter (fun l => (oracle l.href).isNone)).length = 1 ∧
        (links.filter (fun l => (oracle l.href).isSome)).length = links.length - 1 := by
  intro links
  induction links with
  | nil =>
    intro f _ hf
    cases hf
  | cons l ls ih =>
    intro f hnd hf hfail hsucc
    rw [List.map_cons, List.nodup_cons] at hnd
    obtain ⟨hout, hndtl⟩ := hnd
    rcases List.mem_cons.mp hf with rfl | hfls
    · have hall : ∀ x ∈ ls, (oracle x.href).isSome = true := by
        intro x hx
        refine hsucc x (List.mem_cons.mpr (Or.inr hx)) ?_
        rintro rfl
        exact hout (List.mem_map_of_mem Link.href hx)
      have hnil : ls.filter (fun x => (oracle x.href).isNone) = [] := by
        rw [List.filter_eq_nil_iff]
        intro x hx
        simp [Option.isNone_iff_eq_none]
        intro he
        have := hall x hx
        rw [he] at this
        exact absurd this (by simp)
      have hself : ls.filter (fun x => (oracle x.href).isSome) = ls :=
        List.filter_eq_self.mpr hall
      constructor
      · rw [List.filter_cons, if_pos (by simp [hfail]), hnil]
        rfl
      · rw [List.filter_cons, if_neg (by simp [hfail]), hself]
        simp
    · have hlf : l ≠ f := by
        rintro rfl
        exact hout (List.mem_map_of_mem Link.href hfls)
      have hlsome : (oracle l.href).isSome = true := hsucc l (by simp) hlf
      obtain ⟨c₁, c₂⟩ := ih f hndtl hfls hfail
        (fun x hx hne => hsucc x (List.mem_cons.mpr (Or.inr hx)) hne)
      have hlsne : ls ≠ [] := List.ne_nil_of_mem hfls
      have hlen : 0 < ls.length := List.length_pos.mpr hlsne
      constructor
      · rw [List.filter_cons, if_neg (by simp [Option.isNone_iff_eq_none]; intro he; rw [he] at hlsome; exact absurd hlsome (by simp))]
        exact c₁
      · rw [List.filter_cons, if_pos (by simp [hlsome])]
        simp only [List.length_cons, c₂, List.length_cons]
        omega

/-- The final state of the batch loop is the plain left fold over all
links: batching partitions the links, so the composition of the batch
folds is the fold of the concatenation. -/
theorem batchLoopF_fst (c : Nat) (now ttl tmark : Int) (oracle : FetchOracle) :
    ∀ (fuel : Nat) (links : List Link) (st : RunState), links.length ≤ fuel →
      (batchLoopF c now ttl tmark oracle fuel st links).1 =
        links.foldl (fetchAndCache now ttl tmark oracle) st := by
  intro fuel
  induction fuel with
  | zero =>
    intro links st h
    cases links with
    | nil => rfl
    | cons l rest => simp at h
  | succ fuel ih =>
    intro links st h
    cases links with
    | nil => rfl
    | cons l rest =>
      show (batchLoopF c now ttl tmark oracle fuel
          (runBatch now ttl tmark oracle st (l :: rest.take (c - 1)))
          (rest.drop (c - 1))).1 = _
      rw [ih (rest.drop (c - 1)) _ (by
        have h₁ : rest.length ≤ fuel := by simpa using h
        have h₂ : (rest.drop (c - 1)).length = rest.length - (c - 1) := List.length_drop ..
        omega)]
      show (rest.drop (c - 1)).foldl (fetchAndCache now ttl tmark oracle)
          ((l :: rest.take (c - 1)).foldl (fetchAndCache now ttl tmark oracle) st) = _
      rw [← List.foldl_append]
      have hsplit : l :: rest.take (c - 1) ++ rest.drop (c - 1) = l :: rest := by
        rw [List.cons_append, List.take_append_drop]
      rw [hsplit]

theorem batchLoop_fst (c : Nat) (now ttl tmark : Int) (oracle : FetchOracle)
    (st : RunState) (links : List Link) :
    (batchLoop c now ttl tmark oracle st links).1 =
      links.foldl (fetchAndCache now ttl tmark oracle) st :=
  batchLoopF_fst c now ttl tmark oracle links.length links st (Nat.le_refl _)

/-! #### Batch structure of the populate loop -/

theorem chunksOfF_flatten (c : Nat) :
    ∀ (fuel : Nat) (links : List Link), links.length ≤ fuel →
      (chunksOfF c fuel links).flatten = links := by
  intro fuel
  induction fuel with
  | zero =>
    intro links h
    cases links with
    | nil => rfl
    | cons l rest => simp at h
  | succ fuel ih =>
    intro links h
    cases links with
    | nil => rfl
    | cons l rest =>
      show ((l :: rest.take (c - 1)) :: chunksOfF c fuel (rest.drop (c - 1))).flatten =
        l :: rest
      rw [List.flatten_cons, ih (rest.drop (c - 1)) (by
        have h₂ : (rest.drop (c - 1)).length = rest.length - (c - 1) := List.length_drop ..
        have h₃ : rest.length ≤ fuel := by simpa using h
        omega)]
      rw [List.cons_append, List.take_append_drop]

theorem chunksOfF_sizes (c : Nat) (hc : 0 < c) :
    ∀ (fuel : Nat) (links : List Link), ∀ b ∈ chunksOfF c fuel links,
      b ≠ [] ∧ b.length ≤ c := by
  intro fuel
  induction fuel with
  | zero =>
    intro links b hb
    cases links with
    | nil => cases hb
    | cons l rest => cases hb
  | succ fuel ih =>
    intro links b hb
    cases links with
    | nil => cases hb
    | cons l rest =>
      rcases List.mem_cons.mp hb with rfl | hb
      · refine ⟨by simp, ?_⟩
        have h₃ : (rest.take (c - 1)).length ≤ c - 1 := by
          rw [List.length_take]
          exact Nat.min_le_left ..
        simp only [List.length_cons]
        omega
      · exact ih (rest.drop (c - 1)) b hb

theorem chunksOfF_nil (c : Nat) (fuel : Nat) : chunksOfF c fuel [] = [] := by
  cases fuel <;> rfl

theorem chunksOfF_full (c : Nat) (hc : 0 < c) :
    ∀ (fuel : Nat) (links : List Link), ∀ i, i + 1 < (chunksOfF c fuel links).length →
      ((chunksOfF c fuel links)[i]?.map List.length) = some c := by
  intro fuel
  induction fuel with
  | zero =>
    intro links i hi
    have h0 : chunksOfF c 0 links = [] := by cases links <;> rfl
    rw [h0] at hi
    simp at hi
  | succ fuel ih =>
    intro links i hi
    cases links with
    | nil =>
      rw [chunksOfF_nil] at hi
      simp at hi
    | cons l rest =>
      have hchunk : chunksOfF c (fuel + 1) (l :: rest) =
          (l :: rest.take (c - 1)) :: chunksOfF c fuel (rest.drop (c - 1)) := rfl
      rw [hchunk] at hi ⊢
      cases i with
      | zero =>
        have htail : chunksOfF c fuel (rest.drop (c - 1)) ≠ [] := by
          intro he
          rw [he] at hi
          simp at hi
        have hdrop : rest.drop (c - 1) ≠ [] := by
          intro he
          rw [he, chunksOfF_nil] at htail
          exact htail rfl
        have hlen : c - 1 < rest.length := by
          by_contra hlt
          exact hdrop (List.drop_eq_nil_of_le (by omega))
        have h₄ : (rest.take (c - 1)).length = c - 1 := by
          rw [List.length_take]
          exact Nat.min_eq_left (by omega)
        show ((l :: rest.take (c - 1)) :: _)[0]?.map List.length = some c
        rw [List.getElem?_cons_zero]
        show some (l :: rest.take (c - 1)).length = some c
        rw [List.length_cons, h₄]
        congr 1
        omega
      | succ i =>
        simp only [List.getElem?_cons_succ]
        exact ih (rest.drop (c - 1)) i (by simpa using hi)

theorem batchLoopF_snd_length (c : Nat) (now ttl tmark : Int) (oracle : FetchOracle) :
    ∀ (fuel : Nat) (links : List Link) (st : RunState),
      (batchLoopF c now ttl tmark oracle fuel st links).2.length =
        (chunksOfF c fuel links).length := by
  intro fuel
  induction fuel with
  | zero =>
    intro links st
    cases links <;> rfl
  | succ fuel ih =>
    intro links st
    cases links with
    | nil => rfl
    | cons l rest =>
      show (_ :: (batchLoopF c now ttl tmark oracle fuel _ _).2).length =
        (_ :: chunksOfF c fuel _).length
      simp [ih]

theorem batchLoopF_snd_idx (c : Nat) (now ttl tmark : Int) (oracle : FetchOracle) :
    ∀ (fuel : Nat) (links : List Link) (st : RunState) (i : Nat),
      i < (chunksOfF c fuel links).length →
      (batchLoopF c now ttl tmark oracle fuel st links).2[i]? =
        some ((((chunksOfF c fuel links).take (i + 1)).flatten.foldl
          (fetchAndCache now ttl tmark oracle) st).db) := by
  intro fuel
  induction fuel with
  | zero =>
    intro links st i hi
    have h0 : chunksOfF c 0 links = [] := by cases links <;> rfl
    rw [h0] at hi
    simp at hi
  | succ fuel ih =>
    intro links st i hi
    cases links with
    | nil =>
      rw [chunksOfF_nil] at hi
      simp at hi
    | cons l rest =>
      have hchunk : chunksOfF c (fuel + 1) (l :: rest) =
          (l :: rest.take (c - 1)) :: chunksOfF c fuel (rest.drop (c - 1)) := rfl
      have hloop : (batchLoopF c now ttl tmark oracle (fuel + 1) st (l :: rest)).2 =
          (runBatch now ttl tmark oracle st (l :: rest.take (c - 1))).db ::
            (batchLoopF c now ttl tmark oracle fuel
              (runBatch now ttl tmark oracle st (l :: rest.take (c - 1)))
              (rest.drop (c - 1))).2 := rfl
      rw [hchunk] at hi ⊢
      rw [hloop]
      cases i with
      | zero =>
        simp only [List.getElem?_cons_zero, List.take_succ_cons, List.take_zero,
          List.flatten_cons, List.flatten_nil, List.append_nil]
        rfl
      | succ i =>
        simp only [List.getElem?_cons_succ, List.take_succ_cons, List.flatten_cons]
        rw [ih (rest.drop (c - 1)) _ i (by simpa using hi)]
        rw [List.foldl_append]
        rfl

theorem fetchAndCache_populatedAt_runBatch (now ttl tmark : Int) (oracle : FetchOracle) :
    ∀ (batch : List Link) (st : RunState),
      (runBatch now ttl tmark oracle st batch).db.populatedAt = st.db.populatedAt := by
  intro batch
  induction batch with
  | nil => intro st; rfl
  | cons l rest ih =>
    intro st
    show (runBatch now ttl tmark oracle (fetchAndCache now ttl tmark oracle st l) rest).db.populatedAt = _
    rw [ih]
    exact fetchAndCache_populatedAt

theorem batchLoopF_snd_pending (c : Nat) (now ttl tmark : Int) (oracle : FetchOracle) :
    ∀ (fuel : Nat) (links : List Link) (st : RunState),
      ∀ db₂ ∈ (batchLoopF c now ttl tmark oracle fuel st links).2,
        db₂.populatedAt = st.db.populatedAt := by
  intro fuel
  induction fuel with
  | zero =>
    intro links st db₂ hm
    cases links with
    | nil => cases hm
    | cons l rest => cases hm
  | succ fuel ih =>
    intro links st db₂ hm
    cases links with
    | nil => cases hm
    | cons l rest =>
      have hloop : (batchLoopF c now ttl tmark oracle (fuel + 1) st (l :: rest)).2 =
          (runBatch now ttl tmark oracle st (l :: rest.take (c - 1))).db ::
            (batchLoopF c now ttl tmark oracle fuel
              (runBatch now ttl tmark oracle st (l :: rest.take (c - 1)))
              (rest.drop (c - 1))).2 := rfl
      rw [hloop] at hm
      rcases List.mem_cons.mp hm with rfl | hm
      · exact fetchAndCache_populatedAt_runBatch now ttl tmark oracle _ st
      · rw [ih (rest.drop (c - 1)) _ db₂ hm]
        exact fetchAndCache_populatedAt_runBatch now ttl tmark oracle _ st

/-! #### Order independence within a batch -/

theorem setPage_comm {m : PagesMap} {k₁ k₂ : String} {v₁ v₂ : PageEntry}
    (h : k₁ ≠ k₂) :
    setPage (setPage m k₁ v₁) k₂ v₂ = setPage (setPage m k₂ v₂) k₁ v₁ := by
  funext k
  unfold setPage
  by_cases h₁ : k = k₁ <;> by_cases h₂ : k = k₂ <;> simp [h₁, h₂, h, Ne.symm h]

theorem setCache_comm {m : CacheMap} {k₁ k₂ : String} {v₁ v₂ : String}
    (h : k₁ ≠ k₂) :
    setCache (setCache m k₁ v₁) k₂ v₂ = setCache (setCache m k₂ v₂) k₁ v₁ := by
  funext k
  unfold setCache
  by_cases h₁ : k = k₁ <;> by_cases h₂ : k = k₂ <;> simp [h₁, h₂, h, Ne.symm h]

/-- Two `fetchAndCache` calls on distinct keys commute: within a batch the
execution order of the concurrent fetches does not matter. -/
theorem fetchAndCache_comm {now ttl tmark : Int} {oracle : FetchOracle} {st : RunState}
    {a b : Link} (hne : a.href ≠ b.href) :
    fetchAndCache now ttl tmark oracle (fetchAndCache now ttl tmark oracle st a) b =
      fetchAndCache now ttl tmark oracle (fetchAndCache now ttl tmark oracle st b) a := by
  have hpb : (fetchAndCache now ttl tmark oracle st a).db.pages b.href =
      st.db.pages b.href := (fetchAndCache_other_key b.href (Ne.symm hne)).1
  have hpa : (fetchAndCache now ttl tmark oracle st b).db.pages a.href =
      st.db.pages a.href := (fetchAndCache_other_key a.href hne).1
  cases hsa : shouldSkip now ttl (st.db.pages a.href) with
  | true =>
    have hsa₂ : shouldSkip now ttl
        ((fetchAndCache now ttl tmark oracle st b).db.pages a.href) = true := by
      rw [hpa]; exact hsa
    rw [fetchAndCache_skip hsa₂]
    cases hsb : shouldSkip now ttl (st.db.pages b.href) with
    | true =>
      have hsb₂ : shouldSkip now ttl
          ((fetchAndCache now ttl tmark oracle st a).db.pages b.href) = true := by
        rw [hpb]; exact hsb
      rw [fetchAndCache_skip hsb₂,
        fetchAndCache_skip hsa,
        fetchAndCache_skip hsb]
    | false =>
      have hsb₂ : shouldSkip now ttl
          ((fetchAndCache now ttl tmark oracle st a).db.pages b.href) = false := by
        rw [hpb]; exact hsb
      cases hob : oracle b.href with
      | none =>
        rw [fetchAndCache_err hsb₂ hob, fetchAndCache_skip hsa,
          fetchAndCache_err hsb hob]
      | some pb =>
        rw [fetchAndCache_ok hsb₂ hob, fetchAndCache_skip hsa,
          fetchAndCache_ok hsb hob]
  | false =>
    have hsa₂ : shouldSkip now ttl
        ((fetchAndCache now ttl tmark oracle st b).db.pages a.href) = false := by
      rw [hpa]; exact hsa
    cases hoa : oracle a.href with
    | none =>
      rw [fetchAndCache_err hsa₂ hoa]
      cases hsb : shouldSkip now ttl (st.db.pages b.href) with
      | true =>
        have hsb₂ : shouldSkip now ttl
            ((fetchAndCache now ttl tmark oracle st a).db.pages b.href) = true := by
          rw [hpb]; exact hsb
        rw [fetchAndCache_skip hsb₂, fetchAndCache_err hsa hoa,
          fetchAndCache_skip hsb]
      | false =>
        have hsb₂ : shouldSkip now ttl
            ((fetchAndCache now ttl tmark oracle st a).db.pages b.href) = false := by
          rw [hpb]; exact hsb
        cases hob : oracle b.href with
        | none =>
          rw [fetchAndCache_err hsb₂ hob, fetchAndCache_err hsa hoa,
            fetchAndCache_err hsb hob]
        | some pb =>
          rw [fetchAndCache_ok hsb₂ hob, fetchAndCache_err hsa hoa,
            fetchAndCache_ok hsb hob]
    | some pa =>
      rw [fetchAndCache_ok hsa₂ hoa]
      cases hsb : shouldSkip now ttl (st.db.pages b.href) with
      | true =>
        have hsb₂ : shouldSkip now ttl
            ((fetchAndCache now ttl tmark oracle st a).db.pages b.href) = true := by
          rw [hpb]; exact hsb
        rw [fetchAndCache_skip hsb₂, fetchAndCache_ok hsa hoa,
          fetchAndCache_skip hsb]
      | false =>
        have hsb₂ : shouldSkip now ttl
            ((fetchAndCache now ttl tmark oracle st a).db.pages b.href) = false := by
          rw [hpb]; exact hsb
        cases hob : oracle b.href with
        | none =>
          rw [fetchAndCache_err hsb₂ hob, fetchAndCache_ok hsa hoa,
            fetchAndCache_err hsb hob]
        | some pb =>
          rw [fetchAndCache_ok hsb₂ hob, fetchAndCache_ok hsa hoa,
            fetchAndCache_ok hsb hob]
          rw [setPage_comm hne, setCache_comm hne]

/-- Within a batch of pairwise-distinct keys, any execution order of the
concurrent `fetchAndCache` calls produces the same state. -/
theorem runBatch_perm (now ttl tmark : Int) (oracle : FetchOracle) (st : RunState)
    {b₁ b₂ : List Link} (hp : b₁.Perm b₂) (hnd : (b₁.map Link.href).Nodup) :
    runBatch now ttl tmark oracle st b₁ = runBatch now ttl tmark oracle st b₂ := by
  refine hp.foldl_eq' ?_ st
  intro x hx y hy z
  by_cases hxy : x = y
  · rw [hxy]
  · have hne : x.href ≠ y.href := by
      intro he
      exact hxy (List.inj_on_of_nodup_map hnd hx hy he)
    exact fetchAndCache_comm hne

end Populate

/-! ### Claim C5 — staleness gating of the fetch -/

/-- C5, counterexample: at `now = 5`, `ttl = 10`, an entry with
`fetchedAt = 0` is fresh in the claim's sense (`now - fetchedAt < ttl`,
so not stale), yet the run fetches it: the guard
`entry?.fetchedAt && ...` treats the timestamp `0` as falsy, so the claim
`fetched iff stale` fails at this input. -/
theorem C5_counterexample_zero_timestamp :
    Populate.specStale 5 10 (some ⟨"T", some 0⟩) = false ∧
      Populate.shouldSkip 5 10 (some ⟨"T", some 0⟩) = false ∧
      (Populate.fetchAndCache 5 10 7 (fun _ => some ⟨"T", "u", "m"⟩)
          ⟨⟨none, fun k => if k = "k" then some ⟨"T", some 0⟩ else none⟩,
            fun _ => none, 0, 0, 0⟩ ⟨"k", "T"⟩).fetched = 1 := by
  refine ⟨by decide, by decide, ?_⟩
  rfl

/-- C5, amended: a discovered key is fetched iff its registry entry is
absent, its `fetchedAt` is absent *or zero* (JS falsiness), or
`now - fetchedAt ≥ ttlMs`; a key whose entry is fresh is counted as
skipped and the step leaves the registry, the cached content and the
other counters unchanged. -/
theorem C5_fetch_iff_stale_or_zero (now ttl tmark : Int) (oracle : Populate.FetchOracle)
    (st : Populate.RunState) (l : Populate.Link) :
    (Populate.shouldSkip now ttl (st.db.pages l.href) = false ↔
      st.db.pages l.href = none ∨ ∃ en, st.db.pages l.href = some en ∧
        (en.fetchedAt = none ∨ en.fetchedAt = some 0 ∨
          ∃ t, en.fetchedAt = some t ∧ ttl ≤ now - t)) ∧
    (Populate.shouldSkip now ttl (st.db.pages l.href) = true →
      Populate.fetchAndCache now ttl tmark oracle st l =
        { st with skipped := st.skipped + 1 }) := by
  refine ⟨Populate.shouldSkip_false_iff now ttl (st.db.pages l.href), fun h => ?_⟩
  unfold Populate.fetchAndCache
  rw [if_pos h]

/-- C5, witness: a fresh entry (`fetchedAt = 80` at `now = 100`,
`ttl = 50`) is skipped and the state is otherwise untouched. -/
theorem C5_witness_fresh_skip :
    Populate.fetchAndCache 100 50 7 (fun _ => none)
        ⟨⟨none, fun k => if k = "k" then some ⟨"T", some 80⟩ else none⟩,
          fun _ => none, 0, 0, 0⟩ ⟨"k", "T"⟩ =
      { (⟨⟨none, fun k => if k = "k" then some ⟨"T", some 80⟩ else none⟩,
          fun _ => none, 0, 0, 0⟩ : Populate.RunState) with skipped := 0 + 1 } :=
  (C5_fetch_iff_stale_or_zero 100 50 7 (fun _ => none)
      ⟨⟨none, fun k => if k = "k" then some ⟨"T", some 80⟩ else none⟩,
        fun _ => none, 0, 0, 0⟩ ⟨"k", "T"⟩).2 (by decide)

/-! ### Claim C6 — idempotent registration -/

/-- C6: registration never demotes an entry — if the key is already
present (whatever its `fetchedAt`), the step returns the registry
unchanged; for an unknown key it inserts a pending entry (title from the
link, `fetchedAt` absent) touching nothing else; and the step is
idempotent. -/
theorem C6_registerIfAbsent_idempotent (db : DocsDb) (l : Populate.Link) :
    (∀ en, db.pages l.href = some en → Populate.registerIfAbsent db l = db) ∧
    (db.pages l.href = none →
      (Populate.registerIfAbsent db l).pages l.href = some ⟨l.title, none⟩ ∧
        (∀ k, k ≠ l.href → (Populate.registerIfAbsent db l).pages k = db.pages k) ∧
        (Populate.registerIfAbsent db l).populatedAt = db.populatedAt) ∧
    Populate.registerIfAbsent (Populate.registerIfAbsent db l) l =
      Populate.registerIfAbsent db l := by
  refine ⟨?_, ?_, ?_⟩
  · intro en he
    unfold Populate.registerIfAbsent
    rw [he]
  · intro he
    unfold Populate.registerIfAbsent
    rw [he]
    refine ⟨?_, ?_, rfl⟩
    · simp [Populate.setPage]
    · intro k hk
      simp [Populate.setPage, hk]
  · cases he : db.pages l.href with
    | some en =>
      have h₁ : Populate.registerIfAbsent db l = db := by
        unfold Populate.registerIfAbsent
        rw [he]
      rw [h₁]
      exact h₁
    | none =>
      have h₂ : (Populate.registerIfAbsent db l).pages l.href = some ⟨l.title, none⟩ := by
        unfold Populate.registerIfAbsent
        rw [he]
        simp [Populate.setPage]
      generalize hg : Populate.registerIfAbsent db l = db₂ at h₂ ⊢
      unfold Populate.registerIfAbsent
      rw [h₂]

/-! ### Claim C8 — batched fetching with per-batch persistence -/

/-- C8: with concurrency `c ≥ 1` the populate run partitions the selected
keys into consecutive nonempty groups of size `c` (only the last may be
smaller) whose concatenation is the key list; the registry is persisted
once after every group (snapshot `i` is exactly the state after the first
`i+1` groups, so group `n+1` starts from the state group `n` persisted)
plus once more at the end; every per-batch snapshot still carries the
original `populatedAt`, which is set only in the final persisted
snapshot; and within a group the concurrent fetches commute — any
execution order of a batch with pairwise-distinct keys yields the same
state. -/
theorem C8_batched_fetch_and_persistence (c : Nat) (now ttl tmark tEnd : Int)
    (oracle : Populate.FetchOracle) (st : Populate.RunState)
    (links : List Populate.Link) (hc : 0 < c) :
    (Populate.chunksOf c links).flatten = links ∧
      (∀ b ∈ Populate.chunksOf c links, b ≠ [] ∧ b.length ≤ c) ∧
      (∀ i, i + 1 < (Populate.chunksOf c links).length →
        ((Populate.chunksOf c links)[i]?.map List.length) = some c) ∧
      (Populate.populateRun c now ttl tmark tEnd oracle st links).2.length =
        (Populate.chunksOf c links).length + 1 ∧
      (∀ i, i < (Populate.chunksOf c links).length →
        (Populate.populateRun c now ttl tmark tEnd oracle st links).2[i]? =
          some ((((Populate.chunksOf c links).take (i + 1)).flatten.foldl
            (Populate.fetchAndCache now ttl tmark oracle) st).db)) ∧
      (∀ db₂ ∈ (Populate.batchLoop c now ttl tmark oracle st links).2,
        db₂.populatedAt = st.db.populatedAt) ∧
      (Populate.populateRun c now ttl tmark tEnd oracle st links).2.getLast? =
        some (Populate.populateRun c now ttl tmark tEnd oracle st links).1.db ∧
      (Populate.populateRun c now ttl tmark tEnd oracle st links).1.db.populatedAt =
        some tEnd ∧
      ∀ (b₁ b₂ : List Populate.Link) (st₂ : Populate.RunState),
        b₁.Perm b₂ → (b₁.map Populate.Link.href).Nodup →
          Populate.runBatch now ttl tmark oracle st₂ b₁ =
            Populate.runBatch now ttl tmark oracle st₂ b₂ := by
  have hsplit : (Populate.populateRun c now ttl tmark tEnd oracle st links).2 =
      (Populate.batchLoop c now ttl tmark oracle st links).2 ++
        [{ (Populate.batchLoop c now ttl tmark oracle st links).1.db with
          populatedAt := some tEnd }] := rfl
  refine ⟨Populate.chunksOfF_flatten c links.length links (Nat.le_refl _),
    fun b hb => Populate.chunksOfF_sizes c hc links.length links b hb,
    Populate.chunksOfF_full c hc links.length links, ?_, ?_, ?_, ?_, rfl, ?_⟩
  · rw [hsplit, List.length_append]
    have h₁ : (Populate.batchLoop c now ttl tmark oracle st links).2.length =
        (Populate.chunksOf c links).length :=
      Populate.batchLoopF_snd_length c now ttl tmark oracle links.length links st
    rw [h₁]
    rfl
  · intro i hi
    have h₁ : (Populate.batchLoop c now ttl tmark oracle st links).2.length =
        (Populate.chunksOf c links).length :=
      Populate.batchLoopF_snd_length c now ttl tmark oracle links.length links st
    have h₂ : i < (Populate.batchLoop c now ttl tmark oracle st links).2.length := by
      rw [h₁]
      exact hi
    rw [hsplit, List.getElem?_append_left h₂]
    exact Populate.batchLoopF_snd_idx c now ttl tmark oracle links.length links st i hi
  · exact Populate.batchLoopF_snd_pending c now ttl tmark oracle links.length links st
  · rw [hsplit]
    exact List.getLast?_concat ..
  · intro b₁ b₂ st₂ hp hnd
    exact Populate.runBatch_perm now ttl tmark oracle st₂ hp hnd

/-- C8, witness: three keys at concurrency 2 yield two batch snapshots
plus the final one, and a two-key batch gives the same state in either
execution order. -/
theorem C8_witness_batches :
    (Populate.populateRun 2 0 0 7 9 (fun _ => none)
        ⟨⟨none, fun _ => none⟩, fun _ => none, 0, 0, 0⟩
        [⟨"a", "A"⟩, ⟨"b", "B"⟩, ⟨"c", "C"⟩]).2.length =
      (Populate.chunksOf 2 [⟨"a", "A"⟩, ⟨"b", "B"⟩, ⟨"c", "C"⟩]).length + 1 ∧
    Populate.runBatch 0 0 7 (fun _ => none)
        ⟨⟨none, fun _ => none⟩, fun _ => none, 0, 0, 0⟩ [⟨"a", "A"⟩, ⟨"b", "B"⟩] =
      Populate.runBatch 0 0 7 (fun _ => none)
        ⟨⟨none, fun _ => none⟩, fun _ => none, 0, 0, 0⟩ [⟨"b", "B"⟩, ⟨"a", "A"⟩] := by
  have h := C8_batched_fetch_and_persistence 2 0 0 7 9 (fun _ => none)
    ⟨⟨none, fun _ => none⟩, fun _ => none, 0, 0, 0⟩
    [⟨"a", "A"⟩, ⟨"b", "B"⟩, ⟨"c", "C"⟩] (by decide)
  exact ⟨h.2.2.2.1,
    h.2.2.2.2.2.2.2.2 [⟨"a", "A"⟩, ⟨"b", "B"⟩] [⟨"b", "B"⟩, ⟨"a", "A"⟩]
      ⟨⟨none, fun _ => none⟩, fun _ => none, 0, 0, 0⟩ (by decide) (by decide)⟩

/-! ### Search index lemmas -/

namespace Search

theorem setAssoc_mem_self (m : List (String × String)) (k v : String) :
    (k, v) ∈ setAssoc m k v := by
  unfold setAssoc
  split
  · next h =>
    rcases List.any_eq_true.mp h with ⟨p, hp, hk⟩
    have hk₂ : p.1 = k := by simpa using hk
    have hmm : (if p.1 = k then (k, v) else p) ∈
        List.map (fun q : String × String => if q.1 = k then (k, v) else q) m :=
      List.mem_map_of_mem _ hp
    rw [if_pos hk₂] at hmm
    exact hmm
  · simp

theorem setAssoc_mem_charact {m : List (String × String)} {k v : String}
    {p : String × String} (h : p ∈ setAssoc m k v) :
    (p.1 = k ∧ p.2 = v) ∨ (p ∈ m ∧ p.1 ≠ k) := by
  unfold setAssoc at h
  split at h
  · rcases List.mem_map.mp h with ⟨q, hq, he⟩
    by_cases hqk : q.1 = k
    · rw [if_pos hqk] at he
      left
      rw [← he]
      exact ⟨rfl, rfl⟩
    · rw [if_neg hqk] at he
      right
      rw [← he]
      exact ⟨hq, hqk⟩
  · next hany =>
    rcases List.mem_append.mp h with hm | hm
    · right
      refine ⟨hm, ?_⟩
      intro hk
      exact hany (List.any_eq_true.mpr ⟨p, hm, by simpa using hk⟩)
    · left
      have : p = (k, v) := by simpa using hm
      rw [this]
      exact ⟨rfl, rfl⟩

theorem search_spec (st : SearchState) (term : String) (maxResults : Nat) :
    (search st term maxResults none).1 = (engineSearch (idxAfter st) term).take maxResults := by
  obtain ⟨sidx, sstore⟩ := st
  cases sidx <;> rfl

/-- If some document with the wanted id matches and every other indexed
document does not, the truncated result list contains the wanted id. -/
theorem search_key_mem (idxq : List SearchDoc) (key term : String) (n : Nat) (hn : 0 < n)
    (hmem : ∃ d ∈ idxq, d.id = key ∧ docMatches term d = true)
    (hothers : ∀ d ∈ idxq, d.id ≠ key → docMatches term d = false) :
    ∃ d ∈ (engineSearch idxq term).take n, d.id = key := by
  obtain ⟨d₀, hd₀, hid, hdm⟩ := hmem
  have hraw : d₀ ∈ engineSearch idxq term := List.mem_filter.mpr ⟨hd₀, hdm⟩
  have hall : ∀ d ∈ engineSearch idxq term, d.id = key := by
    intro d hd
    obtain ⟨hdin, hdm₂⟩ := List.mem_filter.mp hd
    by_contra hne
    rw [hothers d hdin hne] at hdm₂
    exact absurd hdm₂ (by simp)
  cases hE : engineSearch idxq term with
  | nil =>
    rw [hE] at hraw
    cases hraw
  | cons d rest =>
    cases n with
    | zero => omega
    | succ n =>
      refine ⟨d, by simp, ?_⟩
      exact hall d (by rw [hE]; exact List.mem_cons.mpr (Or.inl rfl))

end Search

/-! ### Claim C9 — store and index kept in lockstep -/

/-- C9: `spec-modelled` MiniSearch engine (term containment).  First part:
after `writeCache(url, text)`, a search for a term occurring in `text`
and in no other stored or indexed document returns the page's derived
key among its results — whether the index existed (incremental upsert) or
not (lazy rebuild from the store).  Second part: after
`resetSearchIndex()`, the next search rebuilds the index from the content
store, so previously cached content is found again without any further
upsert. -/
theorem C9_write_search_and_reset_rebuild :
    (∀ (st : Search.SearchState) (url content term : String) (maxResults : Nat),
      0 < maxResults →
      Search.containsStr content.data term.data = true →
      (∀ p ∈ st.store, p.1 ≠ Search.urlToPath url →
        Search.docMatches term (Search.mkDoc p.1 p.2) = false) →
      (∀ idx, st.index = some idx → ∀ d ∈ idx, d.id ≠ Search.urlToPath url →
        Search.docMatches term d = false) →
      ∃ d ∈ (Search.search (Search.writeCache st url content) term maxResults none).1,
        d.id = Search.urlToPath url) ∧
    ∀ (st : Search.SearchState) (key content term : String) (maxResults : Nat),
      0 < maxResults →
      (key, content) ∈ st.store →
      Search.containsStr content.data term.data = true →
      (∀ p ∈ st.store, p.1 ≠ key → Search.docMatches term (Search.mkDoc p.1 p.2) = false) →
      ∃ d ∈ (Search.search (Search.resetSearchIndex st) term maxResults none).1,
        d.id = key := by
  have hmatch : ∀ f c term₂ : String, Search.containsStr c.data term₂.data = true →
      Search.docMatches term₂ (Search.mkDoc f c) = true := by
    intro f c term₂ h
    unfold Search.docMatches Search.mkDoc
    simp [h]
  constructor
  · intro st url content term maxResults hn hterm hstore hidx
    obtain ⟨sidx, sstore⟩ := st
    cases sidx with
    | none =>
      have hw : Search.writeCache ⟨none, sstore⟩ url content =
          ⟨none, Search.setAssoc sstore (Search.urlToPath url) content⟩ := rfl
      rw [hw, Search.search_spec]
      refine Search.search_key_mem _ _ _ _ hn ?_ ?_
      · refine ⟨Search.mkDoc (Search.urlToPath url) content, ?_, rfl, hmatch _ _ _ hterm⟩
        exact List.mem_map_of_mem _ (Search.setAssoc_mem_self sstore _ content)
      · intro d hd hne
        rcases List.mem_map.mp hd with ⟨p, hp, he⟩
        have hid : d.id = p.1 := by rw [← he]; rfl
        rcases Search.setAssoc_mem_charact hp with ⟨hk, _⟩ | ⟨hm, hk⟩
        · exact absurd (hid.trans hk) hne
        · rw [← he]
          exact hstore p hm (fun h₂ => hne (hid.trans h₂))
    | some idx₀ =>
      have hw : Search.writeCache ⟨some idx₀, sstore⟩ url content =
          ⟨some (Search.setDoc idx₀ (Search.urlToPath url) content),
            Search.setAssoc sstore (Search.urlToPath url) content⟩ := rfl
      rw [hw, Search.search_spec]
      refine Search.search_key_mem _ _ _ _ hn ?_ ?_
      · refine ⟨Search.mkDoc (Search.urlToPath url) content, ?_, rfl, hmatch _ _ _ hterm⟩
        unfold Search.setDoc
        show _ ∈ Search.idxAfter _
        simp [Search.idxAfter]
      · intro d hd hne
        have hd₂ : d ∈ Search.setDoc idx₀ (Search.urlToPath url) content := hd
        unfold Search.setDoc at hd₂
        rcases List.mem_append.mp hd₂ with hm | hm
        · obtain ⟨hmi, _⟩ := List.mem_filter.mp hm
          exact hidx idx₀ rfl d hmi hne
        · have : d = Search.mkDoc (Search.urlToPath url) content := by simpa using hm
          exact absurd (by rw [this]; rfl) hne
  · intro st key content term maxResults hn hmem hterm hstore
    obtain ⟨sidx, sstore⟩ := st
    have hw : Search.resetSearchIndex ⟨sidx, sstore⟩ = ⟨none, sstore⟩ := rfl
    rw [hw, Search.search_spec]
    refine Search.search_key_mem _ _ _ _ hn ?_ ?_
    · exact ⟨Search.mkDoc key content, List.mem_map_of_mem _ hmem, rfl, hmatch _ _ _ hterm⟩
    · intro d hd hne
      rcases List.mem_map.mp hd with ⟨p, hp, he⟩
      have hid : d.id = p.1 := by rw [← he]; rfl
      rw [← he]
      exact hstore p hp (fun h₂ => hne (hid.trans h₂))

/-- C9, witness: caching a page whose body contains `zebra` into an empty
system and searching `zebra` returns that page's key; and after a reset
on a one-page store the key is found again by the rebuild. -/
theorem C9_witness_zebra :
    (∃ d ∈ (Search.search (Search.writeCache ⟨none, []⟩ "/a/b" "# T\n\nzebra facts")
        "zebra" 1 none).1, d.id = Search.urlToPath "/a/b") ∧
    ∃ d ∈ (Search.search (Search.resetSearchIndex
        ⟨some [], [("k.md", "zebra facts")]⟩) "zebra" 3 none).1, d.id = "k.md" :=
  ⟨C9_write_search_and_reset_rebuild.1 ⟨none, []⟩ "/a/b" "# T\n\nzebra facts" "zebra" 1
      (by decide) (by decide) (by simp) (by intro idx h; exact absurd h (by simp)),
    C9_write_search_and_reset_rebuild.2 ⟨some [], [("k.md", "zebra facts")]⟩
      "k.md" "zebra facts" "zebra" 3 (by decide) (by simp) (by decide) (by
        intro p hp hne
        have : p = ("k.md", "zebra facts") := by simpa using hp
        exact absurd (by rw [this]) hne)⟩

/-! ### Claim C7 — populate resilience under a single failing fetch -/

/-- C7: if the (deduplicated) eligible keys all pass the staleness gate,
exactly one key's fetch always fails and every other key's fetch
succeeds, the populate run completes (the step function is total — the
fetch error is caught and counted, never rethrown), counts exactly one
error and a success per other key, and the final persisted registry
carries a fresh `fetchedAt` for every succeeded key while the failed
key's entry is exactly what it was before the run. -/
theorem C7_populate_single_failure (c : Nat) (now ttl tmark tEnd : Int)
    (oracle : Populate.FetchOracle) (st : Populate.RunState)
    (links : List Populate.Link) (f : Populate.Link)
    (hnd : (links.map Populate.Link.href).Nodup)
    (hstale : ∀ l ∈ links, Populate.shouldSkip now ttl (st.db.pages l.href) = false)
    (hf : f ∈ links) (hfail : oracle f.href = none)
    (hsucc : ∀ l ∈ links, l ≠ f → (oracle l.href).isSome) :
    (Populate.populateRun c now ttl tmark tEnd oracle st links).1.errors =
        st.errors + 1 ∧
      (Populate.populateRun c now ttl tmark tEnd oracle st links).1.fetched =
        st.fetched + (links.length - 1) ∧
      (Populate.populateRun c now ttl tmark tEnd oracle st links).1.skipped =
        st.skipped ∧
      (∀ l ∈ links, l ≠ f →
        (Populate.populateRun c now ttl tmark tEnd oracle st links).1.db.pages l.href =
          some ⟨l.title, some tmark⟩) ∧
      (Populate.populateRun c now ttl tmark tEnd oracle st links).1.db.pages f.href =
        st.db.pages f.href ∧
      (Populate.populateRun c now ttl tmark tEnd oracle st links).2.getLast? =
        some (Populate.populateRun c now ttl tmark tEnd oracle st links).1.db := by
  obtain ⟨e₁, e₂, e₃, e₄, e₅, e₆, e₇⟩ :=
    Populate.foldRun_spec now ttl tmark oracle links st hnd hstale
  obtain ⟨c₁, c₂⟩ := Populate.filter_single_failure oracle links f hnd hf hfail hsucc
  have hb := Populate.batchLoop_fst c now ttl tmark oracle st links
  have hrun : Populate.populateRun c now ttl tmark tEnd oracle st links =
      ({ (Populate.batchLoop c now ttl tmark oracle st links).1 with
          db := { (Populate.batchLoop c now ttl tmark oracle st links).1.db with
            populatedAt := some tEnd } },
        (Populate.batchLoop c now ttl tmark oracle st links).2 ++
          [{ (Populate.batchLoop c now ttl tmark oracle st links).1.db with
            populatedAt := some tEnd }]) := rfl
  rw [hrun]
  refine ⟨?_, ?_, ?_, ?_, ?_, ?_⟩
  · show (Populate.batchLoop c now ttl tmark oracle st links).1.errors = st.errors + 1
    rw [hb, e₁, c₁]
  · show (Populate.batchLoop c now ttl tmark oracle st links).1.fetched =
      st.fetched + (links.length - 1)
    rw [hb, e₂, c₂]
  · show (Populate.batchLoop c now ttl tmark oracle st links).1.skipped = st.skipped
    rw [hb, e₃]
  · intro l hm hne
    show (Populate.batchLoop c now ttl tmark oracle st links).1.db.pages l.href =
      some ⟨l.title, some tmark⟩
    rw [hb]
    exact e₅ l hm (hsucc l hm hne)
  · show (Populate.batchLoop c now ttl tmark oracle st links).1.db.pages f.href =
      st.db.pages f.href
    rw [hb]
    exact e₄ f hf hfail
  · exact List.getLast?_concat ..

/-- C7, witness: three fresh keys at concurrency 2, with only `"b"`
failing — one error, two successes, registry updated for `"a"`/`"c"` and
untouched for `"b"`. -/
theorem C7_witness_three_links :
    (Populate.populateRun 2 100 50 7 9
        (fun h => if h = "b" then none else some ⟨"T", "u", "m"⟩)
        ⟨⟨none, fun _ => none⟩, fun _ => none, 0, 0, 0⟩
        [⟨"a", "A"⟩, ⟨"b", "B"⟩, ⟨"c", "C"⟩]).1.errors = 0 + 1 ∧
      (Populate.populateRun 2 100 50 7 9
        (fun h => if h = "b" then none else some ⟨"T", "u", "m"⟩)
        ⟨⟨none, fun _ => none⟩, fun _ => none, 0, 0, 0⟩
        [⟨"a", "A"⟩, ⟨"b", "B"⟩, ⟨"c", "C"⟩]).1.fetched = 0 + (3 - 1) ∧
      (Populate.populateRun 2 100 50 7 9
        (fun h => if h = "b" then none else some ⟨"T", "u", "m"⟩)
        ⟨⟨none, fun _ => none⟩, fun _ => none, 0, 0, 0⟩
        [⟨"a", "A"⟩, ⟨"b", "B"⟩, ⟨"c", "C"⟩]).1.db.pages "a" = some ⟨"A", some 7⟩ ∧
      (Populate.populateRun 2 100 50 7 9
        (fun h => if h = "b" then none else some ⟨"T", "u", "m"⟩)
        ⟨⟨none, fun _ => none⟩, fun _ => none, 0, 0, 0⟩
        [⟨"a", "A"⟩, ⟨"b", "B"⟩, ⟨"c", "C"⟩]).1.db.pages "b" = none := by
  have h := C7_populate_single_failure 2 100 50 7 9
    (fun h => if h = "b" then none else some ⟨"T", "u", "m"⟩)
    ⟨⟨none, fun _ => none⟩, fun _ => none, 0, 0, 0⟩
    [⟨"a", "A"⟩, ⟨"b", "B"⟩, ⟨"c", "C"⟩] ⟨"b", "B"⟩
    (by decide) (by decide) (by decide) (by decide) (by decide)
  exact ⟨h.1, h.2.1, h.2.2.2.1 ⟨"a", "A"⟩ (by decide) (by decide), h.2.2.2.2.1⟩

/-- C6, witness: re-registering a key with a non-absent timestamp leaves
the registry untouched, and registering an unknown key inserts a pending
entry. -/
theorem C6_witness_register :
    Populate.registerIfAbsent
        ⟨some 99, fun k => if k = "a" then some ⟨"T", some 5⟩ else none⟩ ⟨"a", "other"⟩ =
      ⟨some 99, fun k => if k = "a" then some ⟨"T", some 5⟩ else none⟩ ∧
    (Populate.registerIfAbsent ⟨none, fun _ => none⟩ ⟨"b", "t2"⟩).pages "b" =
      some ⟨"t2", none⟩ :=
  ⟨(C6_registerIfAbsent_idempotent
      ⟨some 99, fun k => if k = "a" then some ⟨"T", some 5⟩ else none⟩ ⟨"a", "other"⟩).1
        ⟨"T", some 5⟩ (by decide),
    ((C6_registerIfAbsent_idempotent ⟨none, fun _ => none⟩ ⟨"b", "t2"⟩).2.1 (by decide)).1⟩

end SamsungDocs
